import Mathlib

/-!
Verification development for the Wesnoth pathfinding module
(`src/pathfind.hpp`).

The header defines the data model inline (`paths::route`,
`paths::route::waypoint`, `cost_calculator`, the calculator variants) and
declares the search functions (`a_star_search`, the `paths` constructor,
`route_turns_to_complete`, `enemy_zoc`) whose bodies live in a translation
unit that is not part of the sources; those operations are modelled from
the specification, as indicated on each definition.

Conventions of the embedding:
* tile coordinates (`map_location`) are opaque values consumed through
  equality and adjacency only, so locations are represented by `Fin n`
  and adjacency by an explicit neighbour function (per the spec, teleport
  links only change the adjacency relation, so a caller folds them into
  the neighbour function);
* C++ `double` cost values are represented by `ℚ` (all costs manipulated
  by the module are small integral values, no rounding behaviour is
  involved);
* C++ `std::map` values are represented by functions into `Option`
  (unique keys, no meaningful order).
-/

namespace Wesnoth

/-- Per-tile route metadata, from `pathfind.hpp` lines 124-134
(`paths::route::waypoint`).  The field initializers mirror the default
arguments of the C++ constructor
`waypoint(int turns_number = 0, bool in_zoc = false, bool do_capture = false,
bool is_invisible = false)`. -/
structure waypoint where
  turns : ℤ := 0
  zoc : Bool := false
  capture : Bool := false
  invisible : Bool := false
deriving DecidableEq, Repr

/-- A single route between one location and another, from `pathfind.hpp`
lines 119-136 (`paths::route`).  The default values mirror the C++
default constructor `route() : steps(), move_left(0), waypoints()`.
The waypoint `std::map` is embedded as a function into `Option`. -/
structure route (ν : Type) where
  steps : List ν := []
  move_left : ℤ := 0
  waypoints : ν → Option waypoint := fun _ => none
deriving Inhabited

/-- The `paths::routes_map` typedef, `pathfind.hpp` line 138:
a map from destination location to its best route. -/
def routes_map (ν : Type) : Type := ν → Option (route ν)

/-- Object with all possible locations a unit can move to with associated
best routes, from `pathfind.hpp` lines 99-140 (`struct paths`).  The
default constructor `paths() : routes() {}` gives the empty map. -/
structure paths (ν : Type) where
  routes : routes_map ν := fun _ => none

/-- The distinguished "no path" sentinel returned by
`cost_calculator::getNoPathValue`, `pathfind.hpp` line 89:
`inline double getNoPathValue() const { return (42424242.0); }`. -/
def noPathValue : ℚ := 42424242

/-- The pluggable cost model, from `pathfind.hpp` lines 74-93
(`struct cost_calculator`).  `cost` is the virtual per-step cost function
(parameterised by the accumulated cost so far) and `get_max_cost` the
virtual budget accessor whose base-class implementation returns 0. -/
structure cost_calculator (ν : Type) where
  cost : ν → ν → ℚ → ℚ
  get_max_cost : ℤ := 0

/-- `cost_calculator::getNoPathValue` is a non-virtual inline member
returning the fixed literal, identical for every instance of every
variant. -/
def cost_calculator.getNoPathValue {ν : Type} (_ : cost_calculator ν) : ℚ :=
  noPathValue

/-- The narrow slice of the external unit collaborator consumed by this
module: the mover's remaining and total movement allowance
(`pathfind.hpp` lines 172-173 store both as `int const`). -/
structure unit where
  movement_left : ℤ := 0
  total_movement : ℤ := 0
deriving DecidableEq, Repr

/-- Modelled from the spec: the body of
`shortest_path_calculator::shortest_path_calculator` and
`shortest_path_calculator::cost` is missing from the sources (only the
declaration, `pathfind.hpp` lines 158-176, is present).  Per the spec,
the cost of entering a tile is the mover's terrain move cost (with
defense/ownership adjustment folded into the supplied `tc` lookup), a
tile occupied by a hard-to-pass hostile/unseen/unallied unit is
impassable, both impassability cases answer the distinguished "no path"
sentinel, and a step into an enemy zone of control consumes the whole
remaining allowance; the constructor captures the unit's remaining
movement, which `get_max_cost` reports (`pathfind.hpp` line 165). -/
def shortest_path_calculator {ν : Type} (u : unit) (tc : ν → Option ℚ)
    (occupiedBlock : ν → Bool) (zocApplies : ν → Bool) : cost_calculator ν where
  cost := fun _src loc so_far =>
    match tc loc with
    | none => noPathValue
    | some w =>
        if occupiedBlock loc then noPathValue
        else if zocApplies loc then max w ((u.movement_left : ℚ) - so_far)
        else w
  get_max_cost := u.movement_left

/-- Modelled from the spec: the body of `emergency_path_calculator`
(declared at `pathfind.hpp` lines 182-191) is missing from the sources.
Per the spec it ignores occupancy, visibility and ZOC entirely and
charges pure terrain move cost. -/
def emergency_path_calculator {ν : Type} (u : unit) (tc : ν → Option ℚ) :
    cost_calculator ν where
  cost := fun _src loc _so_far =>
    match tc loc with
    | none => noPathValue
    | some w => w
  get_max_cost := u.total_movement

/-- Modelled from the spec: the body of `dummy_path_calculator` (declared
at `pathfind.hpp` lines 197-203) is missing from the sources.  Per the
spec it charges a fixed unit cost per step regardless of terrain. -/
def dummy_path_calculator {ν : Type} (u : unit) : cost_calculator ν where
  cost := fun _ _ _ => 1
  get_max_cost := u.total_movement

/-- C10: a default-constructed `paths::route` has empty steps, zero
`move_left` and an empty waypoint map, and a default-constructed
`paths::route::waypoint` has `turns = 0` and all three flags false. -/
theorem route_default_fields (ν : Type) (x : ν) :
    ({} : route ν).steps = [] ∧ ({} : route ν).move_left = 0 ∧
      ({} : route ν).waypoints x = none ∧
      ({} : waypoint).turns = 0 ∧ ({} : waypoint).zoc = false ∧
      ({} : waypoint).capture = false ∧ ({} : waypoint).invisible = false :=
  ⟨rfl, rfl, rfl, rfl, rfl, rfl, rfl⟩

/-- C8: `getNoPathValue` answers the one fixed constant `42424242.0` for
every calculator instance, and it is this sentinel that the shortest-path
cost model returns for a forbidden step (an impassable tile). -/
theorem getNoPathValue_constant {ν : Type} (c : cost_calculator ν) (u : unit)
    (tc : ν → Option ℚ) (occupiedBlock zocApplies : ν → Bool)
    (src loc : ν) (so_far : ℚ) :
    c.getNoPathValue = 42424242 ∧
      (tc loc = none →
        (shortest_path_calculator u tc occupiedBlock zocApplies).cost src loc so_far =
          (shortest_path_calculator u tc occupiedBlock zocApplies).getNoPathValue) := by
  refine ⟨rfl, fun h => ?_⟩
  simp [shortest_path_calculator, cost_calculator.getNoPathValue, h]

/-- Witness for C8 at a concrete calculator and a concretely impassable
tile. -/
theorem getNoPathValue_constant_witness :
    ((fun _ : Bool => (none : Option ℚ)) true = none) ∧
      ((dummy_path_calculator {} : cost_calculator Bool).getNoPathValue = 42424242 ∧
        ((fun _ : Bool => (none : Option ℚ)) true = none →
          (shortest_path_calculator {} (fun _ : Bool => (none : Option ℚ))
              (fun _ => false) (fun _ => false)).cost false true 0 =
            (shortest_path_calculator {} (fun _ : Bool => (none : Option ℚ))
              (fun _ => false) (fun _ => false)).getNoPathValue)) :=
  ⟨rfl, getNoPathValue_constant (dummy_path_calculator {}) {}
    (fun _ => none) (fun _ => false) (fun _ => false) false true 0⟩

/-- C9: `shortest_path_calculator::get_max_cost` reports the movement
budget captured from the unit at construction, the mover's remaining
movement allowance. -/
theorem shortest_path_calculator_get_max_cost {ν : Type} (u : unit)
    (tc : ν → Option ℚ) (occupiedBlock zocApplies : ν → Bool) :
    (shortest_path_calculator u tc occupiedBlock zocApplies).get_max_cost =
      u.movement_left :=
  rfl

/-! ## The generic best-first search engine

Modelled from the spec: the bodies of `a_star_search` and of the `paths`
constructor are missing from the sources (only the declarations at
`pathfind.hpp` lines 144-147 and 111-116 are present).  Both are
described by the spec as best-first searches over the tile graph —
`a_star_search` keyed by accumulated cost plus an admissible heuristic,
the reachability engine keyed by accumulated cost generalized across
turn boundaries — in which a node is finalized the first time it is
popped from the frontier and later discoveries of the same node are
discarded.  The engine below implements that loop once, parameterised
by the neighbour function, a step-admissibility test, the accumulated
cost update, and the priority key; the two searches are instances. -/

/-- A frontier/settled entry of the search: a node, the accumulated cost
with which it was discovered, and the path (list of locations, origin
included) realising that cost. -/
structure SEntry (n : ℕ) (C : Type) where
  node : Fin n
  g : C
  path : List (Fin n)
deriving DecidableEq, Repr

/-- Search parameters: neighbour enumeration, per-step admissibility
(pruning by the "no path" sentinel, the stop threshold, the search
window), accumulated-cost update and priority key. -/
structure SP (n : ℕ) (C P : Type) where
  adj : Fin n → List (Fin n)
  allowed : Fin n → Fin n → C → Bool
  step : Fin n → Fin n → C → C
  pri : Fin n → C → P

variable {n : ℕ} {C P : Type}

/-- The priority key of an entry. -/
def SP.key (sp : SP n C P) (e : SEntry n C) : P :=
  sp.pri e.node e.g

/-- Extract a minimal-key entry from the frontier (the leftmost one among
equal keys, so the search is deterministic for a fixed insertion
order). -/
def extractMin [LinearOrder P] (sp : SP n C P) :
    List (SEntry n C) → Option (SEntry n C × List (SEntry n C))
  | [] => none
  | e :: es =>
      match extractMin sp es with
      | none => some (e, [])
      | some (m, rest) =>
          if sp.key e ≤ sp.key m then some (e, es) else some (m, e :: rest)

/-- All one-step extensions of a settled entry that pass the
admissibility test. -/
def expand (sp : SP n C P) (e : SEntry n C) : List (SEntry n C) :=
  (sp.adj e.node).filterMap fun v =>
    if sp.allowed e.node v e.g then
      some ⟨v, sp.step e.node v e.g, e.path ++ [v]⟩
    else none

/-- The nodes already finalized. -/
def settledNodes (settled : List (SEntry n C)) : List (Fin n) :=
  settled.map (·.node)

/-- The search loop: repeatedly pop a minimal-priority entry; discard it
if its node is already settled, otherwise finalize it and push its
extensions.  Fuel-indexed structural recursion; with enough fuel the
frontier is exhausted (proved below), so the top-level searches simply
supply sufficient fuel. -/
def runFuel [LinearOrder P] (sp : SP n C P) :
    ℕ → List (SEntry n C) → List (SEntry n C) →
      List (SEntry n C) × List (SEntry n C)
  | 0, settled, frontier => (settled, frontier)
  | fuel + 1, settled, frontier =>
      match extractMin sp frontier with
      | none => (settled, frontier)
      | some (e, rest) =>
          if e.node ∈ settledNodes settled then runFuel sp fuel settled rest
          else runFuel sp fuel (settled ++ [e]) (rest ++ expand sp e)

/-- Accumulated cost of following the location list `q` from node `u`
with accumulated cost `g`, `none` if some step is not an admissible edge
of the search. -/
def walkAcc (sp : SP n C P) : Fin n → C → List (Fin n) → Option C
  | _, g, [] => some g
  | u, g, v :: q =>
      if v ∈ sp.adj u ∧ sp.allowed u v g = true then
        walkAcc sp v (sp.step u v g) q
      else none

/-- The final node of the path `src :: q`. -/
def endOf (src : Fin n) : List (Fin n) → Fin n
  | [] => src
  | v :: q => endOf v q

/-- The degree bound used to size the fuel. -/
def maxDeg (sp : SP n C P) : ℕ :=
  ((List.finRange n).map fun v => (sp.adj v).length).foldr Nat.max 0

/-- Fuel that provably exhausts the frontier from the initial state. -/
def enoughFuel (sp : SP n C P) : ℕ :=
  n * (maxDeg sp + 1) + 1

/-! ### Properties of the frontier extraction -/

theorem extractMin_eq_none [LinearOrder P] (sp : SP n C P) :
    ∀ l : List (SEntry n C), extractMin sp l = none ↔ l = [] := by
  intro l
  cases l with
  | nil => simp [extractMin]
  | cons e es =>
      simp only [extractMin]
      cases h : extractMin sp es with
      | none => simp
      | some p =>
          obtain ⟨m, rest⟩ := p
          by_cases hk : sp.key e ≤ sp.key m <;> simp [hk]

theorem extractMin_split [LinearOrder P] (sp : SP n C P) :
    ∀ (l : List (SEntry n C)) e rest, extractMin sp l = some (e, rest) →
      ∃ l₁ l₂, l = l₁ ++ e :: l₂ ∧ rest = l₁ ++ l₂ := by
  intro l
  induction l with
  | nil => intro e rest h; simp [extractMin] at h
  | cons a as ih =>
      intro e rest h
      simp only [extractMin] at h
      cases hm : extractMin sp as with
      | none =>
          rw [hm] at h
          simp only [Option.some.injEq, Prod.mk.injEq] at h
          obtain ⟨rfl, rfl⟩ := h
          have : as = [] := (extractMin_eq_none sp as).mp hm
          exact ⟨[], as, by simp, by simp [this]⟩
      | some p =>
          obtain ⟨m, mrest⟩ := p
          rw [hm] at h
          by_cases hk : sp.key a ≤ sp.key m
          · simp only [hk, if_true, Option.some.injEq, Prod.mk.injEq] at h
            obtain ⟨rfl, rfl⟩ := h
            exact ⟨[], as, rfl, rfl⟩
          · simp only [hk, if_false, Option.some.injEq, Prod.mk.injEq] at h
            obtain ⟨rfl, rfl⟩ := h
            obtain ⟨l₁, l₂, hsplit, hrest⟩ := ih m mrest hm
            exact ⟨a :: l₁, l₂, by simp [hsplit], by simp [hrest]⟩

theorem extractMin_min [LinearOrder P] (sp : SP n C P) :
    ∀ (l : List (SEntry n C)) e rest, extractMin sp l = some (e, rest) →
      ∀ x ∈ l, sp.key e ≤ sp.key x := by
  intro l
  induction l with
  | nil => intro e rest h; simp [extractMin] at h
  | cons a as ih =>
      intro e rest h x hx
      simp only [extractMin] at h
      cases hm : extractMin sp as with
      | none =>
          rw [hm] at h
          simp only [Option.some.injEq, Prod.mk.injEq] at h
          obtain ⟨rfl, rfl⟩ := h
          have : as = [] := (extractMin_eq_none sp as).mp hm
          subst this
          simp only [List.mem_singleton] at hx
          subst hx
          exact le_refl _
      | some p =>
          obtain ⟨m, mrest⟩ := p
          rw [hm] at h
          by_cases hk : sp.key a ≤ sp.key m
          · simp only [hk, if_true, Option.some.injEq, Prod.mk.injEq] at h
            obtain ⟨rfl, rfl⟩ := h
            rcases List.mem_cons.mp hx with rfl | hx
            · exact le_refl _
            · exact le_trans hk (ih m mrest hm x hx)
          · simp only [hk, if_false, Option.some.injEq, Prod.mk.injEq] at h
            obtain ⟨rfl, rfl⟩ := h
            rcases List.mem_cons.mp hx with rfl | hx
            · exact le_of_lt (lt_of_not_le hk)
            · exact ih m mrest hm x hx

theorem extractMin_mem [LinearOrder P] (sp : SP n C P)
    {l : List (SEntry n C)} {e rest} (h : extractMin sp l = some (e, rest)) :
    e ∈ l := by
  obtain ⟨l₁, l₂, rfl, _⟩ := extractMin_split sp l e rest h
  simp

theorem extractMin_rest_subset [LinearOrder P] (sp : SP n C P)
    {l : List (SEntry n C)} {e rest} (h : extractMin sp l = some (e, rest)) :
    ∀ x ∈ rest, x ∈ l := by
  obtain ⟨l₁, l₂, rfl, rfl⟩ := extractMin_split sp l e rest h
  intro x hx
  rcases List.mem_append.mp hx with hx | hx <;> simp [hx]

theorem extractMin_length [LinearOrder P] (sp : SP n C P)
    {l : List (SEntry n C)} {e rest} (h : extractMin sp l = some (e, rest)) :
    l.length = rest.length + 1 := by
  obtain ⟨l₁, l₂, rfl, rfl⟩ := extractMin_split sp l e rest h
  simp [Nat.add_comm, Nat.add_left_comm, Nat.add_assoc]

theorem extractMin_mem_iff [LinearOrder P] (sp : SP n C P)
    {l : List (SEntry n C)} {e rest} (h : extractMin sp l = some (e, rest)) :
    ∀ x ∈ l, x = e ∨ x ∈ rest := by
  obtain ⟨l₁, l₂, rfl, rfl⟩ := extractMin_split sp l e rest h
  intro x hx
  rcases List.mem_append.mp hx with hx | hx
  · exact Or.inr (List.mem_append.mpr (Or.inl hx))
  · rcases List.mem_cons.mp hx with rfl | hx
    · exact Or.inl rfl
    · exact Or.inr (List.mem_append.mpr (Or.inr hx))

/-! ### Fuel exhaustion -/

theorem le_foldr_max : ∀ (l : List ℕ) (x : ℕ), x ∈ l → x ≤ l.foldr Nat.max 0 := by
  intro l
  induction l with
  | nil => intro x hx; simp at hx
  | cons a as ih =>
      intro x hx
      rcases List.mem_cons.mp hx with rfl | hx
      · exact Nat.le_max_left _ _
      · exact le_trans (ih x hx) (Nat.le_max_right _ _)

theorem adj_length_le_maxDeg (sp : SP n C P) (v : Fin n) :
    (sp.adj v).length ≤ maxDeg sp := by
  apply le_foldr_max
  exact List.mem_map_of_mem _ (List.mem_finRange v)

theorem expand_length_le [LinearOrder P] (sp : SP n C P) (e : SEntry n C) :
    (expand sp e).length ≤ maxDeg sp :=
  le_trans (List.length_filterMap_le _ _) (adj_length_le_maxDeg sp e.node)

/-- The termination measure of the search loop. -/
def smeasure (sp : SP n C P) (settled frontier : List (SEntry n C)) : ℕ :=
  (n - (settledNodes settled).toFinset.card) * (maxDeg sp + 1) + frontier.length

theorem settledNodes_card_le (settled : List (SEntry n C)) :
    (settledNodes settled).toFinset.card ≤ n := by
  calc (settledNodes settled).toFinset.card ≤ Fintype.card (Fin n) :=
        Finset.card_le_univ _
    _ = n := Fintype.card_fin n

theorem settledNodes_append_card (settled : List (SEntry n C)) (e : SEntry n C)
    (h : e.node ∉ settledNodes settled) :
    (settledNodes (settled ++ [e])).toFinset.card =
      (settledNodes settled).toFinset.card + 1 := by
  have h1 : settledNodes (settled ++ [e]) = settledNodes settled ++ [e.node] := by
    simp [settledNodes]
  rw [h1, List.toFinset_append]
  have h2 : (settledNodes settled).toFinset ∪ [e.node].toFinset =
      insert e.node (settledNodes settled).toFinset := by
    rw [Finset.union_comm]
    simp [Finset.insert_eq]
  rw [h2, Finset.card_insert_of_not_mem (by simpa using h)]

theorem runFuel_frontier_nil [LinearOrder P] (sp : SP n C P) :
    ∀ (fuel : ℕ) (settled frontier : List (SEntry n C)),
      smeasure sp settled frontier ≤ fuel →
      (runFuel sp fuel settled frontier).2 = [] := by
  intro fuel
  induction fuel with
  | zero =>
      intro s f h
      have : f.length = 0 := by
        have := Nat.le_zero.mp h
        simp only [smeasure] at this
        omega
      simpa [runFuel] using List.length_eq_zero.mp this
  | succ fuel ih =>
      intro s f h
      simp only [runFuel]
      cases hx : extractMin sp f with
      | none => simpa using (extractMin_eq_none sp f).mp hx
      | some p =>
          obtain ⟨e, rest⟩ := p
          have hlen : f.length = rest.length + 1 := extractMin_length sp hx
          by_cases hmem : e.node ∈ settledNodes s
          · simp only [hmem, if_true]
            apply ih
            simp only [smeasure] at h ⊢
            omega
          · simp only [hmem, if_false]
            apply ih
            have hcard := settledNodes_append_card s e hmem
            have hcard2 := settledNodes_card_le (s ++ [e])
            rw [hcard] at hcard2
            have hexp : (expand sp e).length ≤ maxDeg sp := expand_length_le sp e
            simp only [smeasure, List.length_append] at h ⊢
            rw [hcard]
            have hsub : n - (settledNodes s).toFinset.card =
                (n - ((settledNodes s).toFinset.card + 1)) + 1 := by omega
            rw [hsub] at h
            rw [Nat.add_mul, Nat.one_mul] at h
            omega

/-! ### Walks and path ends -/

theorem endOf_concat (src v : Fin n) :
    ∀ q : List (Fin n), endOf src (q ++ [v]) = v := by
  intro q
  induction q generalizing src with
  | nil => rfl
  | cons a as ih => simpa [endOf] using ih a

theorem endOf_mem (src : Fin n) :
    ∀ q : List (Fin n), endOf src q ∈ src :: q := by
  intro q
  induction q generalizing src with
  | nil => simp [endOf]
  | cons a as ih =>
      rcases List.mem_cons.mp (ih a) with h | h
      · simp [endOf, h]
      · simp [endOf]
        right
        right
        exact h

theorem walkAcc_append (sp : SP n C P) :
    ∀ (q₁ q₂ : List (Fin n)) (u : Fin n) (g : C),
      walkAcc sp u g (q₁ ++ q₂) =
        (walkAcc sp u g q₁).bind fun g₁ => walkAcc sp (endOf u q₁) g₁ q₂ := by
  intro q₁
  induction q₁ with
  | nil => intro q₂ u g; simp [walkAcc, endOf]
  | cons a as ih =>
      intro q₂ u g
      simp only [List.cons_append, walkAcc, endOf]
      by_cases h : a ∈ sp.adj u ∧ sp.allowed u a g = true
      · simp only [h, if_true]
        exact ih q₂ a (sp.step u a g)
      · simp [h]

theorem walkAcc_concat_iff (sp : SP n C P) (u : Fin n) (g : C)
    (q : List (Fin n)) (v : Fin n) (gf : C) :
    walkAcc sp u g (q ++ [v]) = some gf ↔
      ∃ g₁, walkAcc sp u g q = some g₁ ∧ v ∈ sp.adj (endOf u q) ∧
        sp.allowed (endOf u q) v g₁ = true ∧ gf = sp.step (endOf u q) v g₁ := by
  rw [walkAcc_append]
  constructor
  · intro h
    cases hq : walkAcc sp u g q with
    | none => rw [hq] at h; simp at h
    | some g₁ =>
        rw [hq] at h
        rw [Option.some_bind] at h
        by_cases hc : v ∈ sp.adj (endOf u q) ∧ sp.allowed (endOf u q) v g₁ = true
        · rw [walkAcc, if_pos hc] at h
          simp only [walkAcc, Option.some.injEq] at h
          exact ⟨g₁, rfl, hc.1, hc.2, h.symm⟩
        · rw [walkAcc, if_neg hc] at h
          simp at h
  · rintro ⟨g₁, hq, hin, hal, rfl⟩
    rw [hq]
    simp [walkAcc, hin, hal]

theorem walkAcc_prefix (sp : SP n C P) {u : Fin n} {g : C}
    {q₁ q₂ : List (Fin n)} {gf : C}
    (h : walkAcc sp u g (q₁ ++ q₂) = some gf) :
    ∃ g₁, walkAcc sp u g q₁ = some g₁ ∧
      walkAcc sp (endOf u q₁) g₁ q₂ = some gf := by
  rw [walkAcc_append] at h
  cases hq : walkAcc sp u g q₁ with
  | none => rw [hq] at h; simp at h
  | some g₁ =>
      rw [hq] at h
      exact ⟨g₁, rfl, by simpa using h⟩

/-! ### The contract of the search parameters

These are the conditions under which the best-first loop is optimal: the
accumulated-cost update is monotone, admissibility of a step does not
improve as cost accumulates, and the priority key is an order embedding
at each node that never decreases along an admissible step (the classic
consistency condition of an A* heuristic, with Dijkstra as the special
case of an identity key). -/

structure SPOk [LinearOrder C] [LinearOrder P] (sp : SP n C P) : Prop where
  step_mono : ∀ u v (g g' : C), g ≤ g' → sp.allowed u v g' = true →
    sp.step u v g ≤ sp.step u v g'
  allowed_anti : ∀ u v (g g' : C), g ≤ g' → sp.allowed u v g' = true →
    sp.allowed u v g = true
  pri_mono : ∀ v (g g' : C), g ≤ g' → sp.pri v g ≤ sp.pri v g'
  pri_reflect : ∀ v (g g' : C), sp.pri v g ≤ sp.pri v g' → g ≤ g'
  pri_consistent : ∀ u v (g : C), v ∈ sp.adj u → sp.allowed u v g = true →
    sp.pri u g ≤ sp.pri v (sp.step u v g)

/-! ### The loop invariant -/

theorem mem_settledNodes {settled : List (SEntry n C)} {e : SEntry n C}
    (h : e ∈ settled) : e.node ∈ settledNodes settled :=
  List.mem_map_of_mem _ h

theorem settledNodes_mem {settled : List (SEntry n C)} {x : Fin n}
    (h : x ∈ settledNodes settled) : ∃ e ∈ settled, e.node = x :=
  List.mem_map.mp h

/-- The invariant maintained by the search loop: settled nodes are
distinct; every settled or frontier entry records an admissible walk
realising its node and accumulated cost, simple and (except for a
frontier entry's own endpoint) through settled nodes; settled costs are
optimal; the initial entry is present until the origin is settled; and
every admissible edge out of a settled node into unsettled territory is
represented in the frontier. -/
structure RunInv [LinearOrder C] (sp : SP n C P) (src : Fin n) (g₀ : C)
    (settled frontier : List (SEntry n C)) : Prop where
  nodup : (settledNodes settled).Nodup
  soundS : ∀ e ∈ settled, ∃ q, e.path = src :: q ∧
    walkAcc sp src g₀ q = some e.g ∧ endOf src q = e.node ∧
    e.path.Nodup ∧ ∀ x ∈ e.path, x ∈ settledNodes settled
  soundF : ∀ e ∈ frontier, ∃ q, e.path = src :: q ∧
    walkAcc sp src g₀ q = some e.g ∧ endOf src q = e.node ∧
    e.path.dropLast.Nodup ∧ ∀ x ∈ e.path.dropLast, x ∈ settledNodes settled
  optS : ∀ e ∈ settled, ∀ q gf, walkAcc sp src g₀ q = some gf →
    endOf src q = e.node → e.g ≤ gf
  start : src ∈ settledNodes settled ∨
    (⟨src, g₀, [src]⟩ : SEntry n C) ∈ frontier
  edge : ∀ e ∈ settled, ∀ v ∈ sp.adj e.node,
    sp.allowed e.node v e.g = true → v ∉ settledNodes settled →
    (⟨v, sp.step e.node v e.g, e.path ++ [v]⟩ : SEntry n C) ∈ frontier

/-- Any admissible walk ending outside the settled set is covered by a
frontier entry of no larger priority key. -/
theorem cover [LinearOrder C] [LinearOrder P] {sp : SP n C P}
    {src : Fin n} {g₀ : C} {settled frontier : List (SEntry n C)}
    (hok : SPOk sp) (inv : RunInv sp src g₀ settled frontier) :
    ∀ (q : List (Fin n)) (gf : C), walkAcc sp src g₀ q = some gf →
      endOf src q ∉ settledNodes settled →
      ∃ fe ∈ frontier, sp.key fe ≤ sp.pri (endOf src q) gf := by
  intro q
  induction q using List.reverseRecOn with
  | nil =>
      intro gf hw hu
      have hg : gf = g₀ := by
        simp only [walkAcc, Option.some.injEq] at hw
        exact hw.symm
      rcases inv.start with h | h
      · exact absurd h hu
      · exact ⟨⟨src, g₀, [src]⟩, h, by simp [SP.key, endOf, hg]⟩
  | append_singleton q v ih =>
      intro gf hw hu
      rw [walkAcc_concat_iff] at hw
      obtain ⟨g₁, hw₁, hin, hal, rfl⟩ := hw
      rw [endOf_concat] at hu
      by_cases hus : endOf src q ∈ settledNodes settled
      · obtain ⟨eu, heu, hequ⟩ := settledNodes_mem hus
        obtain ⟨qq, _, hwq, hendq, _, _⟩ := inv.soundS eu heu
        have hgu : eu.g ≤ g₁ := inv.optS eu heu q g₁ hw₁ hequ.symm
        have hin2 : v ∈ sp.adj eu.node := by rw [hequ]; exact hin
        have hal1 : sp.allowed eu.node v g₁ = true := by rw [hequ]; exact hal
        have hal2 : sp.allowed eu.node v eu.g = true :=
          hok.allowed_anti _ _ _ _ hgu hal1
        have hfe := inv.edge eu heu v hin2 hal2 hu
        refine ⟨_, hfe, ?_⟩
        have h1 : sp.step eu.node v eu.g ≤ sp.step eu.node v g₁ :=
          hok.step_mono _ _ _ _ hgu hal1
        have h2 : sp.pri v (sp.step eu.node v eu.g) ≤
            sp.pri v (sp.step eu.node v g₁) := hok.pri_mono _ _ _ h1
        rw [endOf_concat]
        simpa [SP.key, hequ] using h2
      · obtain ⟨fe, hfe, hk⟩ := ih g₁ hw₁ hus
        refine ⟨fe, hfe, le_trans hk ?_⟩
        rw [endOf_concat]
        exact hok.pri_consistent _ _ _ hin hal

/-- The entry popped with minimal priority key for an unsettled node has
optimal accumulated cost. -/
theorem popped_opt [LinearOrder C] [LinearOrder P] {sp : SP n C P}
    {src : Fin n} {g₀ : C} {settled frontier : List (SEntry n C)}
    {e : SEntry n C} {rest : List (SEntry n C)}
    (hok : SPOk sp) (inv : RunInv sp src g₀ settled frontier)
    (hx : extractMin sp frontier = some (e, rest))
    (hmem : e.node ∉ settledNodes settled) :
    ∀ (q : List (Fin n)) (gf : C), walkAcc sp src g₀ q = some gf →
      endOf src q = e.node → e.g ≤ gf := by
  intro q gf hw hend
  obtain ⟨fe, hfe, hk⟩ := cover hok inv q gf hw (by rw [hend]; exact hmem)
  have h1 : sp.key e ≤ sp.key fe := extractMin_min sp frontier e rest hx fe hfe
  have h2 : sp.pri e.node e.g ≤ sp.pri e.node gf := by
    have := le_trans h1 hk
    rw [hend] at this
    exact this
  exact hok.pri_reflect _ _ _ h2

theorem cons_dropLast_endOf (src : Fin n) (q : List (Fin n)) :
    (src :: q).dropLast ++ [endOf src q] = src :: q := by
  induction q generalizing src with
  | nil => rfl
  | cons a as ih =>
      show (src :: a :: as).dropLast ++ [endOf a as] = src :: a :: as
      rw [List.dropLast_cons₂, List.cons_append, ih a]

theorem mem_expand {sp : SP n C P} {e f : SEntry n C} :
    f ∈ expand sp e ↔ ∃ v, v ∈ sp.adj e.node ∧
      sp.allowed e.node v e.g = true ∧
      f = ⟨v, sp.step e.node v e.g, e.path ++ [v]⟩ := by
  simp only [expand, List.mem_filterMap]
  constructor
  · rintro ⟨v, hv, hf⟩
    by_cases hal : sp.allowed e.node v e.g = true
    · rw [if_pos hal] at hf
      exact ⟨v, hv, hal, (Option.some_inj.mp hf).symm⟩
    · rw [if_neg hal] at hf
      simp at hf
  · rintro ⟨v, hv, hal, rfl⟩
    exact ⟨v, hv, by rw [if_pos hal]⟩

theorem inv_stale [LinearOrder C] [LinearOrder P] {sp : SP n C P}
    {src : Fin n} {g₀ : C} {settled frontier : List (SEntry n C)}
    {e : SEntry n C} {rest : List (SEntry n C)}
    (inv : RunInv sp src g₀ settled frontier)
    (hx : extractMin sp frontier = some (e, rest))
    (hmem : e.node ∈ settledNodes settled) :
    RunInv sp src g₀ settled rest := by
  refine ⟨inv.nodup, inv.soundS, ?_, inv.optS, ?_, ?_⟩
  · intro f hf
    exact inv.soundF f (extractMin_rest_subset sp hx f hf)
  · rcases inv.start with h | h
    · exact Or.inl h
    · rcases extractMin_mem_iff sp hx _ h with heq | h2
      · rw [← heq] at hmem
        exact Or.inl hmem
      · exact Or.inr h2
  · intro f hf v hv hal hvs
    have hmemF := inv.edge f hf v hv hal hvs
    rcases extractMin_mem_iff sp hx _ hmemF with heq | h2
    · exfalso
      apply hvs
      have hnode : v = e.node := congrArg SEntry.node heq
      rw [hnode]
      exact hmem
    · exact h2

theorem inv_settle [LinearOrder C] [LinearOrder P] {sp : SP n C P}
    {src : Fin n} {g₀ : C} {settled frontier : List (SEntry n C)}
    {e : SEntry n C} {rest : List (SEntry n C)}
    (hok : SPOk sp) (inv : RunInv sp src g₀ settled frontier)
    (hx : extractMin sp frontier = some (e, rest))
    (hmem : e.node ∉ settledNodes settled) :
    RunInv sp src g₀ (settled ++ [e]) (rest ++ expand sp e) := by
  have hes : e ∈ frontier := extractMin_mem sp hx
  obtain ⟨qe, hpath, hwalk, hend, hndL, hsubL⟩ := inv.soundF e hes
  have hnodes : settledNodes (settled ++ [e]) = settledNodes settled ++ [e.node] := by
    simp [settledNodes]
  have hsplit : e.path.dropLast ++ [e.node] = e.path := by
    rw [hpath, ← hend]
    exact cons_dropLast_endOf src qe
  have hnotin : e.node ∉ e.path.dropLast := fun hc => hmem (hsubL e.node hc)
  have hpathNodup : e.path.Nodup := by
    rw [← hsplit]
    simp only [List.nodup_append, List.nodup_cons, List.nodup_nil, List.disjoint_singleton]
    exact ⟨hndL, by simp, by simpa using hnotin⟩
  have hpathMem : ∀ x ∈ e.path, x ∈ settledNodes (settled ++ [e]) := by
    intro x hxp
    rw [← hsplit] at hxp
    rcases List.mem_append.mp hxp with hx1 | hx1
    · rw [hnodes]
      exact List.mem_append_left _ (hsubL x hx1)
    · rw [hnodes]
      apply List.mem_append_right
      simpa using hx1
  have hsettledMono : ∀ x, x ∈ settledNodes settled →
      x ∈ settledNodes (settled ++ [e]) := by
    intro x hx
    rw [hnodes]
    exact List.mem_append_left _ hx
  refine ⟨?_, ?_, ?_, ?_, ?_, ?_⟩
  · rw [hnodes]
    simp only [List.nodup_append, List.nodup_cons, List.nodup_nil, List.disjoint_singleton]
    exact ⟨inv.nodup, by simp, by simpa using hmem⟩
  · intro f hf
    rcases List.mem_append.mp hf with hf1 | hf1
    · obtain ⟨q, h1, h2, h3, h4, h5⟩ := inv.soundS f hf1
      exact ⟨q, h1, h2, h3, h4, fun x hx => hsettledMono x (h5 x hx)⟩
    · have : f = e := by simpa using hf1
      subst this
      exact ⟨qe, hpath, hwalk, hend, hpathNodup, hpathMem⟩
  · intro f hf
    rcases List.mem_append.mp hf with hf1 | hf1
    · obtain ⟨q, h1, h2, h3, h4, h5⟩ :=
        inv.soundF f (extractMin_rest_subset sp hx f hf1)
      exact ⟨q, h1, h2, h3, h4, fun x hx => hsettledMono x (h5 x hx)⟩
    · obtain ⟨v, hv, hal, rfl⟩ := mem_expand.mp hf1
      refine ⟨qe ++ [v], ?_, ?_, ?_, ?_, ?_⟩
      · rw [hpath]
        simp
      · rw [walkAcc_concat_iff]
        exact ⟨e.g, hwalk, by rw [hend]; exact hv, by rw [hend]; exact hal,
          by rw [hend]⟩
      · rw [endOf_concat]
      · simpa [List.dropLast_concat] using hpathNodup
      · intro x hx
        rw [List.dropLast_concat] at hx
        exact hpathMem x hx
  · intro f hf
    rcases List.mem_append.mp hf with hf1 | hf1
    · exact inv.optS f hf1
    · have : f = e := by simpa using hf1
      subst this
      exact popped_opt hok inv hx hmem
  · rcases inv.start with h | h
    · exact Or.inl (hsettledMono src h)
    · rcases extractMin_mem_iff sp hx _ h with heq | h2
      · left
        rw [hnodes]
        apply List.mem_append_right
        have : src = e.node := congrArg SEntry.node heq
        simp [this]
      · exact Or.inr (List.mem_append_left _ h2)
  · intro f hf v hv hal hvs
    have hvs1 : v ∉ settledNodes settled := fun hc => hvs (hsettledMono v hc)
    have hvne : v ≠ e.node := by
      intro hc
      apply hvs
      rw [hnodes, hc]
      apply List.mem_append_right
      simp
    rcases List.mem_append.mp hf with hf1 | hf1
    · have hmemF := inv.edge f hf1 v hv hal hvs1
      rcases extractMin_mem_iff sp hx _ hmemF with heq | h2
      · exfalso
        exact hvne (congrArg SEntry.node heq)
      · exact List.mem_append_left _ h2
    · have : f = e := by simpa using hf1
      subst this
      apply List.mem_append_right
      exact mem_expand.mpr ⟨v, hv, hal, rfl⟩

theorem inv_init [LinearOrder C] (sp : SP n C P) (src : Fin n) (g₀ : C) :
    RunInv sp src g₀ [] [⟨src, g₀, [src]⟩] := by
  refine ⟨by simp [settledNodes], ?_, ?_, ?_, Or.inr (by simp), ?_⟩
  · intro f hf
    exact absurd hf (List.not_mem_nil f)
  · intro f hf
    have : f = (⟨src, g₀, [src]⟩ : SEntry n C) := by simpa using hf
    subst this
    exact ⟨[], rfl, rfl, rfl, by simp, by simp⟩
  · intro f hf
    exact absurd hf (List.not_mem_nil f)
  · intro f hf
    exact absurd hf (List.not_mem_nil f)

theorem runFuel_inv [LinearOrder C] [LinearOrder P] {sp : SP n C P}
    {src : Fin n} {g₀ : C} (hok : SPOk sp) :
    ∀ (fuel : ℕ) (settled frontier : List (SEntry n C)),
      RunInv sp src g₀ settled frontier →
      RunInv sp src g₀ (runFuel sp fuel settled frontier).1
        (runFuel sp fuel settled frontier).2 := by
  intro fuel
  induction fuel with
  | zero => intro s f h; exact h
  | succ fuel ih =>
      intro s f h
      simp only [runFuel]
      cases hx : extractMin sp f with
      | none => exact h
      | some p =>
          obtain ⟨e, rest⟩ := p
          by_cases hmem : e.node ∈ settledNodes s
          · simp only [hmem, if_true]
            exact ih _ _ (inv_stale h hx hmem)
          · simp only [hmem, if_false]
            exact ih _ _ (inv_settle hok h hx hmem)

/-- The settled list produced by running the search to frontier
exhaustion from the origin. -/
def searchResult (sp : SP n C P) [LinearOrder P] (src : Fin n) (g₀ : C) :
    List (SEntry n C) :=
  (runFuel sp (enoughFuel sp) [] [⟨src, g₀, [src]⟩]).1

theorem searchRun_frontier_nil [LinearOrder P] (sp : SP n C P)
    (src : Fin n) (g₀ : C) :
    (runFuel sp (enoughFuel sp) [] [⟨src, g₀, [src]⟩]).2 = [] := by
  apply runFuel_frontier_nil
  simp [smeasure, settledNodes, enoughFuel]

theorem searchResult_inv [LinearOrder C] [LinearOrder P] {sp : SP n C P}
    (src : Fin n) (g₀ : C) (hok : SPOk sp) :
    RunInv sp src g₀ (searchResult sp src g₀) [] := by
  have h := runFuel_inv hok (enoughFuel sp) [] [⟨src, g₀, [src]⟩]
    (inv_init sp src g₀)
  rw [searchRun_frontier_nil] at h
  exact h

theorem searchResult_complete [LinearOrder C] [LinearOrder P] {sp : SP n C P}
    (src : Fin n) (g₀ : C) (hok : SPOk sp) :
    ∀ (q : List (Fin n)) (gf : C), walkAcc sp src g₀ q = some gf →
      endOf src q ∈ settledNodes (searchResult sp src g₀) := by
  intro q gf hw
  by_contra hu
  obtain ⟨fe, hfe, _⟩ := cover hok (searchResult_inv src g₀ hok) q gf hw hu
  exact absurd hfe (List.not_mem_nil fe)

/-! ### Soundness alone, without the cost-model contract

Every entry the loop ever settles records an admissible walk, whatever
the cost model does; this backs the error-handling claim, which holds
for arbitrary calculators. -/

structure SoundInv (sp : SP n C P) (src : Fin n) (g₀ : C)
    (settled frontier : List (SEntry n C)) : Prop where
  sS : ∀ e ∈ settled, ∃ q, e.path = src :: q ∧
    walkAcc sp src g₀ q = some e.g ∧ endOf src q = e.node
  sF : ∀ e ∈ frontier, ∃ q, e.path = src :: q ∧
    walkAcc sp src g₀ q = some e.g ∧ endOf src q = e.node

theorem runFuel_soundInv [LinearOrder P] {sp : SP n C P}
    {src : Fin n} {g₀ : C} :
    ∀ (fuel : ℕ) (settled frontier : List (SEntry n C)),
      SoundInv sp src g₀ settled frontier →
      SoundInv sp src g₀ (runFuel sp fuel settled frontier).1
        (runFuel sp fuel settled frontier).2 := by
  intro fuel
  induction fuel with
  | zero => intro s f h; exact h
  | succ fuel ih =>
      intro s f h
      simp only [runFuel]
      cases hx : extractMin sp f with
      | none => exact h
      | some p =>
          obtain ⟨e, rest⟩ := p
          have hrest : ∀ x ∈ rest, x ∈ f := extractMin_rest_subset sp hx
          have hes : e ∈ f := extractMin_mem sp hx
          by_cases hmem : e.node ∈ settledNodes s
          · simp only [hmem, if_true]
            exact ih _ _ ⟨h.sS, fun x hxm => h.sF x (hrest x hxm)⟩
          · simp only [hmem, if_false]
            apply ih
            refine ⟨?_, ?_⟩
            · intro x hxm
              rcases List.mem_append.mp hxm with hx1 | hx1
              · exact h.sS x hx1
              · have : x = e := by simpa using hx1
                subst this
                exact h.sF x hes
            · intro x hxm
              rcases List.mem_append.mp hxm with hx1 | hx1
              · exact h.sF x (hrest x hx1)
              · obtain ⟨v, hv, hal, rfl⟩ := mem_expand.mp hx1
                obtain ⟨qe, hpath, hwalk, hend⟩ := h.sF e hes
                refine ⟨qe ++ [v], by rw [hpath]; simp, ?_, by rw [endOf_concat]⟩
                rw [walkAcc_concat_iff]
                exact ⟨e.g, hwalk, by rw [hend]; exact hv,
                  by rw [hend]; exact hal, by rw [hend]⟩

theorem searchResult_sound [LinearOrder P] {sp : SP n C P}
    {src : Fin n} {g₀ : C} :
    ∀ e ∈ searchResult sp src g₀, ∃ q, e.path = src :: q ∧
      walkAcc sp src g₀ q = some e.g ∧ endOf src q = e.node := by
  have hinit : SoundInv sp src g₀ [] [⟨src, g₀, [src]⟩] :=
    ⟨fun e he => absurd he (List.not_mem_nil e),
      fun e he => by
        have : e = (⟨src, g₀, [src]⟩ : SEntry n C) := by simpa using he
        subst this
        exact ⟨[], rfl, rfl, rfl⟩⟩
  have h := runFuel_soundInv (enoughFuel sp) [] [⟨src, g₀, [src]⟩] hinit
  exact h.sS

theorem walkAcc_mem_allowed (sp : SP n C P) :
    ∀ (q : List (Fin n)) (u : Fin n) (g gf : C),
      walkAcc sp u g q = some gf → ∀ v ∈ q,
        ∃ u' g', sp.allowed u' v g' = true := by
  intro q
  induction q with
  | nil => intro u g gf _ v hv; simp at hv
  | cons a as ih =>
      intro u g gf hw v hv
      rw [walkAcc] at hw
      by_cases hc : a ∈ sp.adj u ∧ sp.allowed u a g = true
      · rw [if_pos hc] at hw
        rcases List.mem_cons.mp hv with rfl | hv
        · exact ⟨u, g, hc.2⟩
        · exact ih a (sp.step u a g) gf hw v hv
      · rw [if_neg hc] at hw
        simp at hw

/-! ## The single-target search `a_star_search`

Modelled from the spec: the body of `a_star_search` (declared at
`pathfind.hpp` lines 144-147) is missing from the sources.  Per §4.2 of
the spec it is an informed best-first search whose edge weight is
`cost_model.cost(current, neighbor, g_current)`, pruned by the caller's
`stop_at` threshold and by a rectangular search window, with an
admissible heuristic added to the accumulated cost as the frontier key.
The embedding keeps the header's parameters as follows: the opaque grid
adjacency (plus any teleport set, which per the spec only changes the
adjacency relation) is the `adj` function, the
`parWidth`/`parHeight` rectangular window is the `window` predicate,
and the external admissible distance metric is the `heur` function. -/

/-- The search-parameter instance of `a_star_search`. -/
def astarSP (adj : Fin n → List (Fin n)) (c : cost_calculator (Fin n))
    (stop_at : ℚ) (window : Fin n → Bool) (heur : Fin n → ℚ) : SP n ℚ ℚ where
  adj := adj
  allowed := fun u v g =>
    decide (c.cost u v g ≠ c.getNoPathValue ∧ g + c.cost u v g ≤ stop_at) &&
      window v
  step := fun u v g => g + c.cost u v g
  pri := fun v g => g + heur v

/-- Modelled from the spec: `a_star_search`.  Runs the best-first loop
to exhaustion from the source at accumulated cost 0 and reads the
destination off the settled list; if the destination was never settled,
the default-constructed (empty) route is returned — failure is an
ordinary value, not an exception.  `move_left` is the movement the unit
has left at the end of the route, the calculator's budget minus the
route cost. -/
def a_star_search (adj : Fin n → List (Fin n)) (heur : Fin n → ℚ)
    (src dst : Fin n) (stop_at : ℚ) (c : cost_calculator (Fin n))
    (window : Fin n → Bool) : route (Fin n) :=
  match (searchResult (astarSP adj c stop_at window heur) src 0).find?
      (fun e => decide (e.node = dst)) with
  | some e =>
      { steps := e.path
        move_left := ⌊(c.get_max_cost : ℚ) - e.g⌋
        waypoints := fun _ => none }
  | none => {}

theorem astar_allowed_iff (adj : Fin n → List (Fin n))
    (c : cost_calculator (Fin n)) (stop_at : ℚ) (window : Fin n → Bool)
    (heur : Fin n → ℚ) (u v : Fin n) (g : ℚ) :
    (astarSP adj c stop_at window heur).allowed u v g = true ↔
      (c.cost u v g ≠ c.getNoPathValue ∧ g + c.cost u v g ≤ stop_at) ∧
        window v = true := by
  simp [astarSP, Bool.and_eq_true, decide_eq_true_iff]

/-- The cost-model contract and heuristic admissibility imply the
optimality conditions of the generic engine for the `a_star_search`
instance. -/
theorem astar_SPOk (adj : Fin n → List (Fin n)) (c : cost_calculator (Fin n))
    (stop_at : ℚ) (window : Fin n → Bool) (heur : Fin n → ℚ)
    (hmono : ∀ u v (g g' : ℚ), g ≤ g' →
      g + c.cost u v g ≤ g' + c.cost u v g')
    (hforbid : ∀ u v (g g' : ℚ), g ≤ g' →
      c.cost u v g = c.getNoPathValue → c.cost u v g' = c.getNoPathValue)
    (hcons : ∀ u v (g : ℚ), v ∈ adj u → heur u ≤ c.cost u v g + heur v) :
    SPOk (astarSP adj c stop_at window heur) := by
  refine ⟨?_, ?_, ?_, ?_, ?_⟩
  · intro u v g g' hg _
    exact hmono u v g g' hg
  · intro u v g g' hg hal
    rw [astar_allowed_iff] at hal ⊢
    obtain ⟨⟨hne, hle⟩, hwin⟩ := hal
    refine ⟨⟨?_, le_trans (hmono u v g g' hg) hle⟩, hwin⟩
    intro hc
    exact hne (hforbid u v g g' hg hc)
  · intro v g g' hg
    simpa [astarSP] using add_le_add_right hg (heur v)
  · intro v g g' hle
    simpa [astarSP] using le_of_add_le_add_right hle
  · intro u v g hv hal
    show g + heur u ≤ g + c.cost u v g + heur v
    have := hcons u v g hv
    linarith

/-- C1: for every reachable destination and a cost model satisfying the
Cost Model contract (monotone accumulation, forbidden steps stay
forbidden as cost accumulates) together with a consistent heuristic,
`a_star_search` returns a route whose first step is the source, whose
last step is the destination, and whose accumulated cost is minimal
among all simple admissible paths respecting the calculator's
`max_cost` bound (supplied as the stop threshold). -/
theorem a_star_search_returns_min_route (adj : Fin n → List (Fin n))
    (heur : Fin n → ℚ) (src dst : Fin n) (stop_at : ℚ)
    (c : cost_calculator (Fin n)) (window : Fin n → Bool)
    (hmono : ∀ u v (g g' : ℚ), g ≤ g' →
      g + c.cost u v g ≤ g' + c.cost u v g')
    (hforbid : ∀ u v (g g' : ℚ), g ≤ g' →
      c.cost u v g = c.getNoPathValue → c.cost u v g' = c.getNoPathValue)
    (hcons : ∀ u v (g : ℚ), v ∈ adj u → heur u ≤ c.cost u v g + heur v)
    (_hstop : stop_at = (c.get_max_cost : ℚ))
    (hreach : ∃ q gf, walkAcc (astarSP adj c stop_at window heur) src 0 q =
      some gf ∧ endOf src q = dst) :
    ∃ gr,
      (a_star_search adj heur src dst stop_at c window).steps.head? = some src ∧
      (a_star_search adj heur src dst stop_at c window).steps.getLast? = some dst ∧
      walkAcc (astarSP adj c stop_at window heur) src 0
        (a_star_search adj heur src dst stop_at c window).steps.tail = some gr ∧
      ∀ (q : List (Fin n)) (gf : ℚ),
        walkAcc (astarSP adj c stop_at window heur) src 0 q = some gf →
        endOf src q = dst → (src :: q).Nodup → gr ≤ gf := by
  have hok := astar_SPOk adj c stop_at window heur hmono hforbid hcons
  obtain ⟨q0, gf0, hw0, hend0⟩ := hreach
  have hsettled : dst ∈ settledNodes
      (searchResult (astarSP adj c stop_at window heur) src 0) := by
    have := searchResult_complete src 0 hok q0 gf0 hw0
    rwa [hend0] at this
  cases hfind : (searchResult (astarSP adj c stop_at window heur) src 0).find?
      (fun e => decide (e.node = dst)) with
  | none =>
      exfalso
      obtain ⟨e, he, henode⟩ := settledNodes_mem hsettled
      have := List.find?_eq_none.mp hfind e he
      simp [henode] at this
  | some e =>
      have hmem : e ∈ searchResult (astarSP adj c stop_at window heur) src 0 :=
        List.mem_of_find?_eq_some hfind
      have hnode : e.node = dst := by
        have := List.find?_some hfind
        simpa using this
      have inv := searchResult_inv src (0 : ℚ) hok
      obtain ⟨q, hpath, hwalk, hend, _, _⟩ := inv.soundS e hmem
      refine ⟨e.g, ?_, ?_, ?_, ?_⟩
      · simp [a_star_search, hfind, hpath]
      · simp only [a_star_search, hfind]
        show e.path.getLast? = some dst
        have hconcat : e.path.dropLast ++ [e.node] = e.path := by
          rw [hpath, ← hend]
          exact cons_dropLast_endOf src q
        rw [← hconcat, List.getLast?_concat, hnode]
      · simp only [a_star_search, hfind]
        show walkAcc (astarSP adj c stop_at window heur) src 0
          e.path.tail = some e.g
        rw [hpath]
        exact hwalk
      · intro q' gf' hw' hend' _
        exact inv.optS e hmem q' gf' hw' (by rw [hend', hnode])

/-- C2: whenever no admissible route to the destination exists within
the stop threshold and the search window, `a_star_search` returns the
default-constructed route, whose step sequence is empty — this needs no
assumption on the cost model, and the function is total, so no other
error channel exists. -/
theorem a_star_search_empty_on_unreachable (adj : Fin n → List (Fin n))
    (heur : Fin n → ℚ) (src dst : Fin n) (stop_at : ℚ)
    (c : cost_calculator (Fin n)) (window : Fin n → Bool)
    (hunreach : ¬ ∃ q gf,
      walkAcc (astarSP adj c stop_at window heur) src 0 q = some gf ∧
        endOf src q = dst) :
    (a_star_search adj heur src dst stop_at c window).steps = [] := by
  cases hfind : (searchResult (astarSP adj c stop_at window heur) src 0).find?
      (fun e => decide (e.node = dst)) with
  | none => simp [a_star_search, hfind]
  | some e =>
      exfalso
      have hmem : e ∈ searchResult (astarSP adj c stop_at window heur) src 0 :=
        List.mem_of_find?_eq_some hfind
      have hnode : e.node = dst := by
        have := List.find?_some hfind
        simpa using this
      obtain ⟨q, _, hwalk, hend⟩ := searchResult_sound e hmem
      exact hunreach ⟨q, e.g, hwalk, by rw [hend, hnode]⟩

/-! ### Concrete instances for the single-target search -/

/-- A three-tile line 0 → 1 → 2. -/
def demoAdj : Fin 3 → List (Fin 3) := ![[1], [2], []]

/-- A calculator charging one movement point per step, for a mover with
two movement points left. -/
def demoCalc : cost_calculator (Fin 3) := ⟨fun _ _ _ => 1, 2⟩

/-- Witness for C1: on the three-tile line with unit step cost, two
movement points and a zero heuristic, the returned route runs from tile
0 to tile 2 and is cost-minimal. -/
theorem a_star_search_returns_min_route_witness :
    ∃ gr,
      (a_star_search demoAdj (fun _ => 0) 0 2 2 demoCalc
        (fun _ => true)).steps.head? = some (0 : Fin 3) ∧
      (a_star_search demoAdj (fun _ => 0) 0 2 2 demoCalc
        (fun _ => true)).steps.getLast? = some 2 ∧
      walkAcc (astarSP demoAdj demoCalc 2 (fun _ => true) fun _ => 0) 0 0
        (a_star_search demoAdj (fun _ => 0) 0 2 2 demoCalc
          (fun _ => true)).steps.tail = some gr ∧
      ∀ (q : List (Fin 3)) (gf : ℚ),
        walkAcc (astarSP demoAdj demoCalc 2 (fun _ => true) fun _ => 0)
          0 0 q = some gf →
        endOf 0 q = 2 → ((0 : Fin 3) :: q).Nodup → gr ≤ gf :=
  a_star_search_returns_min_route demoAdj (fun _ => 0) 0 2 2 demoCalc
    (fun _ => true)
    (fun _ _ g g' h => by simp only [demoCalc]; linarith)
    (fun _ _ _ _ _ hc => by
      exact absurd hc (by
        norm_num [demoCalc, cost_calculator.getNoPathValue, noPathValue]))
    (fun _ _ g _ => by norm_num [demoCalc])
    (by norm_num [demoCalc])
    ⟨[1, 2], 2,
      by norm_num [walkAcc, astarSP, demoAdj, demoCalc,
        cost_calculator.getNoPathValue, noPathValue],
      by decide⟩

/-- Witness for C2: same line, but the search window excludes tile 2, so
no admissible route exists and the returned route is empty. -/
theorem a_star_search_empty_on_unreachable_witness :
    (a_star_search demoAdj (fun _ => 0) 0 2 2 demoCalc
      (fun v => decide (v ≠ 2))).steps = [] := by
  apply a_star_search_empty_on_unreachable
  rintro ⟨q, gf, hw, hend⟩
  have h2mem : (2 : Fin 3) ∈ (0 : Fin 3) :: q := by
    rw [← hend]
    exact endOf_mem 0 q
  have h2q : (2 : Fin 3) ∈ q := by
    rcases List.mem_cons.mp h2mem with h | h
    · exact absurd h (by decide)
    · exact h
  obtain ⟨u', g', hal⟩ := walkAcc_mem_allowed _ q 0 0 gf hw 2 h2q
  rw [astar_allowed_iff] at hal
  simp at hal

/-! ## The multi-turn Reachability Engine (`paths` construction)

Modelled from the spec: the body of the `paths` constructor (declared at
`pathfind.hpp` lines 111-116) is missing from the sources.  Per §4.3 of
the spec it is a Dijkstra-style frontier expansion generalized across
turn boundaries: nodes are expanded in order of accumulated cost with
the turn index as secondary key, a node whose movement is exhausted is
re-queued at the start of the next turn with the allowance reset, and a
turn-boundary waypoint is recorded at that tile.  The embedding
compresses (turn index, cost within the current turn) into one global
movement count `g`: a unit that has consumed `g` points is in turn
`g / T` with `g % T` points of that turn spent (`T` the total per-turn
movement).  The lexicographic expansion order of the spec is exactly
the order on `g`, the re-queue with reset allowance is the rounding in
`turnStep`, and a step into an enemy zone of control rounds `g` up to
the next multiple of `T` (all remaining movement for the turn is
consumed).  The turn horizon `additional_turns` bounds `g` by
`(additional_turns + 1) * T`. -/

/-- The 1-based index of the turn during which the move that brought the
accumulated count to `g` takes place (`0` for the starting position). -/
def turnIdx (T g : ℕ) : ℕ := (g - 1) / T

/-- Round an accumulated count up to the next multiple of `T`: all
movement remaining in the current turn is consumed. -/
def roundUp (T x : ℕ) : ℕ := if x % T = 0 then x else x + (T - x % T)

/-- Pay the terrain cost `w` of entering a tile from accumulated count
`g`: if `w` fits in the movement remaining this turn it is simply added,
otherwise the rest of the turn is forfeited and `w` is paid from the
next turn's full allowance (the spec's re-queue at the start of the next
turn). -/
def baseStep (T w g : ℕ) : ℕ :=
  if w ≤ T - g % T then g + w else g + (T - g % T) + w

/-- One engine step: pay the terrain cost, then, if the entered tile is
in an applicable enemy zone of control, consume all movement remaining
for the turn. -/
def turnStep (T : ℕ) (z : Bool) (w g : ℕ) : ℕ :=
  if z then roundUp T (baseStep T w g) else baseStep T w g

theorem turnStep_ge (T : ℕ) (z : Bool) (w g : ℕ) (hw : 1 ≤ w) :
    g + 1 ≤ turnStep T z w g := by
  have hbase : g + 1 ≤ baseStep T w g := by
    unfold baseStep
    split <;> omega
  have hround : baseStep T w g ≤ roundUp T (baseStep T w g) := by
    unfold roundUp
    split <;> omega
  unfold turnStep
  split <;> omega

theorem roundUp_dvd (T x : ℕ) (hT : 0 < T) : T ∣ roundUp T x := by
  unfold roundUp
  by_cases hx : x % T = 0
  · rw [if_pos hx]
    exact Nat.dvd_of_mod_eq_zero hx
  · rw [if_neg hx]
    have h1 : x % T < T := Nat.mod_lt x hT
    have h2 := Nat.div_add_mod x T
    have h3 : x + (T - x % T) = T * (x / T + 1) := by
      rw [Nat.mul_add, Nat.mul_one]
      omega
    rw [h3]
    exact Dvd.intro _ rfl

theorem turnStep_zoc_dvd (T w g : ℕ) (hT : 0 < T) :
    T ∣ turnStep T true w g := by
  unfold turnStep
  simpa using roundUp_dvd T (baseStep T w g) hT

theorem turnIdx_mono (T : ℕ) {g g' : ℕ} (h : g ≤ g') :
    turnIdx T g ≤ turnIdx T g' :=
  Nat.div_le_div_right (by omega)

theorem turnIdx_eq_zero (T g : ℕ) (h : g ≤ T) : turnIdx T g = 0 := by
  unfold turnIdx
  by_cases hT : 0 < T
  · exact Nat.div_eq_of_lt (by omega)
  · interval_cases T
    simp at h
    simp [h]

theorem turnIdx_mul (T c : ℕ) (hT : 0 < T) (hc : 0 < c) :
    turnIdx T (c * T) = c - 1 := by
  unfold turnIdx
  have h1 : c * T - 1 = (T - 1) + (c - 1) * T := by
    have : 1 * T ≤ c * T := Nat.mul_le_mul_right T hc
    rw [Nat.one_mul] at this
    rw [Nat.sub_mul, Nat.one_mul]
    omega
  rw [h1, Nat.add_mul_div_right _ _ hT, Nat.div_eq_of_lt (by omega)]
  omega

theorem turnIdx_lt_of_mul_le (T c g : ℕ) (hT : 0 < T) (hc : 0 < c)
    (h : c * T < g) : turnIdx T (c * T) < turnIdx T g := by
  rw [turnIdx_mul T c hT hc]
  have h2 : c ≤ turnIdx T g := by
    unfold turnIdx
    rw [Nat.le_div_iff_mul_le hT]
    omega
  omega

/-! Monotonicity of the step in the accumulated count. -/

theorem succ_mod_eq (T g : ℕ) (hT : 0 < T) :
    (g + 1) % T = if g % T + 1 = T then 0 else g % T + 1 := by
  have hdm := Nat.div_add_mod g T
  by_cases hc : g % T + 1 = T
  · have h1 : g + 1 = T * (g / T + 1) := by
      rw [Nat.mul_add, Nat.mul_one]
      omega
    rw [h1, if_pos hc, Nat.mul_mod_right]
  · have hlt : g % T < T := Nat.mod_lt g hT
    have h1 : g + 1 = T * (g / T) + (g % T + 1) := by omega
    rw [h1, if_neg hc, Nat.mul_add_mod]
    exact Nat.mod_eq_of_lt (by omega)

theorem baseStep_succ_le (T w g : ℕ) (hw1 : 1 ≤ w) (hwT : w ≤ T) :
    baseStep T w g ≤ baseStep T w (g + 1) := by
  have hT : 0 < T := by omega
  have hlt : g % T < T := Nat.mod_lt g hT
  have hmod := succ_mod_eq T g hT
  simp only [baseStep, hmod]
  split_ifs <;> omega

theorem baseStep_mono (T w : ℕ) (hw1 : 1 ≤ w) (hwT : w ≤ T) :
    Monotone fun g => baseStep T w g :=
  monotone_nat_of_le_succ fun g => baseStep_succ_le T w g hw1 hwT

theorem roundUp_succ_le (T x : ℕ) (hT : 0 < T) :
    roundUp T x ≤ roundUp T (x + 1) := by
  have hlt : x % T < T := Nat.mod_lt x hT
  have hmod := succ_mod_eq T x hT
  by_cases hc : x % T + 1 = T
  · rw [if_pos hc] at hmod
    simp only [roundUp, hmod]
    split_ifs <;> omega
  · rw [if_neg hc] at hmod
    simp only [roundUp, hmod]
    split_ifs
    all_goals try omega
    all_goals simp_all

theorem roundUp_mono (T : ℕ) (hT : 0 < T) : Monotone fun x => roundUp T x :=
  monotone_nat_of_le_succ fun x => roundUp_succ_le T x hT

theorem turnStep_mono (T : ℕ) (z : Bool) (w : ℕ) {g g' : ℕ}
    (hw1 : 1 ≤ w) (hwT : w ≤ T) (h : g ≤ g') :
    turnStep T z w g ≤ turnStep T z w g' := by
  have hT : 0 < T := by omega
  have hbase := baseStep_mono T w hw1 hwT h
  unfold turnStep
  cases z with
  | false => simpa using hbase
  | true => simpa using roundUp_mono T hT hbase

/-- Whether the zone-of-control rule applies at a tile: ZOC is not
ignored wholesale, the mover is not exempt (no skirmisher ability), and
the tile is in an enemy zone of control as reported by the external
`enemy_zoc` collaborator (declared at `pathfind.hpp` lines 69-72, body
not in the sources; supplied here as the predicate `zocRaw`). -/
def zocApplies (force_ignore_zocs skirmisher : Bool)
    (zocRaw : Fin n → Bool) : Fin n → Bool :=
  fun v => (!force_ignore_zocs && !skirmisher) && zocRaw v

/-- The search-parameter instance of the Reachability Engine, over global
movement counts.  A tile is enterable when the mover's terrain cost for
it is defined (impassable and blocking-occupied tiles have none), at
least one, at most a full turn's allowance, and taking the step keeps
the accumulated count within the turn horizon's bound. -/
def pathsSP (adj : Fin n → List (Fin n)) (tc : Fin n → Option ℕ)
    (zocApp : Fin n → Bool) (T bound : ℕ) : SP n ℕ ℕ where
  adj := adj
  allowed := fun _u v g =>
    match tc v with
    | none => false
    | some w => decide (1 ≤ w ∧ w ≤ T ∧ turnStep T (zocApp v) w g ≤ bound)
  step := fun _u v g => turnStep T (zocApp v) ((tc v).getD 0) g
  pri := fun _ g => g

theorem pathsSP_allowed_iff (adj : Fin n → List (Fin n))
    (tc : Fin n → Option ℕ) (zocApp : Fin n → Bool) (T bound : ℕ)
    (u v : Fin n) (g : ℕ) :
    (pathsSP adj tc zocApp T bound).allowed u v g = true ↔
      ∃ w, tc v = some w ∧ 1 ≤ w ∧ w ≤ T ∧
        turnStep T (zocApp v) w g ≤ bound := by
  simp only [pathsSP]
  cases htc : tc v with
  | none => simp
  | some w => simp [htc]

theorem pathsSP_ok (adj : Fin n → List (Fin n)) (tc : Fin n → Option ℕ)
    (zocApp : Fin n → Bool) (T bound : ℕ) :
    SPOk (pathsSP adj tc zocApp T bound) := by
  refine ⟨?_, ?_, ?_, ?_, ?_⟩
  · intro u v g g' hg hal
    obtain ⟨w, htc, hw1, hwT, _⟩ := (pathsSP_allowed_iff _ _ _ _ _ u v g').mp hal
    show turnStep T (zocApp v) ((tc v).getD 0) g ≤
      turnStep T (zocApp v) ((tc v).getD 0) g'
    rw [htc]
    simp only [Option.getD_some]
    exact turnStep_mono T (zocApp v) w hw1 hwT hg
  · intro u v g g' hg hal
    obtain ⟨w, htc, hw1, hwT, hb⟩ := (pathsSP_allowed_iff _ _ _ _ _ u v g').mp hal
    exact (pathsSP_allowed_iff _ _ _ _ _ u v g).mpr
      ⟨w, htc, hw1, hwT, le_trans (turnStep_mono T (zocApp v) w hw1 hwT hg) hb⟩
  · intro v g g' hg
    exact hg
  · intro v g g' hg
    exact hg
  · intro u v g _ hal
    obtain ⟨w, htc, hw1, _, _⟩ := (pathsSP_allowed_iff _ _ _ _ _ u v g).mp hal
    show g ≤ turnStep T (zocApp v) ((tc v).getD 0) g
    rw [htc]
    simp only [Option.getD_some]
    have := turnStep_ge T (zocApp v) w g hw1
    omega

/-- Along an admissible engine walk the accumulated count never
decreases. -/
theorem pathsWalk_le {adj : Fin n → List (Fin n)} {tc : Fin n → Option ℕ}
    {zocApp : Fin n → Bool} {T bound : ℕ} :
    ∀ (q : List (Fin n)) (u : Fin n) (g gf : ℕ),
      walkAcc (pathsSP adj tc zocApp T bound) u g q = some gf → g ≤ gf := by
  intro q
  induction q with
  | nil =>
      intro u g gf h
      simp only [walkAcc, Option.some.injEq] at h
      omega
  | cons a as ih =>
      intro u g gf h
      rw [walkAcc] at h
      by_cases hc : a ∈ (pathsSP adj tc zocApp T bound).adj u ∧
          (pathsSP adj tc zocApp T bound).allowed u a g = true
      · rw [if_pos hc] at h
        have h1 := ih a _ _ h
        obtain ⟨w, htc, hw1, _, _⟩ :=
          (pathsSP_allowed_iff _ _ _ _ _ u a g).mp hc.2
        have h2 : g ≤ (pathsSP adj tc zocApp T bound).step u a g := by
          show g ≤ turnStep T (zocApp a) ((tc a).getD 0) g
          rw [htc]
          simp only [Option.getD_some]
          have := turnStep_ge T (zocApp a) w g hw1
          omega
        omega
      · rw [if_neg hc] at h
        simp at h

/-- Along a nonempty admissible engine walk the accumulated count
strictly increases. -/
theorem pathsWalk_lt {adj : Fin n → List (Fin n)} {tc : Fin n → Option ℕ}
    {zocApp : Fin n → Bool} {T bound : ℕ}
    (q : List (Fin n)) (u : Fin n) (g gf : ℕ) (hne : q ≠ [])
    (h : walkAcc (pathsSP adj tc zocApp T bound) u g q = some gf) :
    g < gf := by
  cases q with
  | nil => exact absurd rfl hne
  | cons a as =>
      rw [walkAcc] at h
      by_cases hc : a ∈ (pathsSP adj tc zocApp T bound).adj u ∧
          (pathsSP adj tc zocApp T bound).allowed u a g = true
      · rw [if_pos hc] at h
        have h1 := pathsWalk_le as a _ _ h
        obtain ⟨w, htc, hw1, _, _⟩ :=
          (pathsSP_allowed_iff _ _ _ _ _ u a g).mp hc.2
        have h2 : g + 1 ≤ (pathsSP adj tc zocApp T bound).step u a g := by
          show g + 1 ≤ turnStep T (zocApp a) ((tc a).getD 0) g
          rw [htc]
          simp only [Option.getD_some]
          exact turnStep_ge T (zocApp a) w g hw1
        omega
      · rw [if_neg hc] at h
        simp at h

/-- The final accumulated count of a nonempty admissible engine walk is
within the horizon's bound. -/
theorem pathsWalk_bound {adj : Fin n → List (Fin n)} {tc : Fin n → Option ℕ}
    {zocApp : Fin n → Bool} {T bound : ℕ} :
    ∀ (q : List (Fin n)) (u : Fin n) (g gf : ℕ), q ≠ [] →
      walkAcc (pathsSP adj tc zocApp T bound) u g q = some gf →
      gf ≤ bound := by
  intro q
  induction q with
  | nil => intro u g gf hne _; exact absurd rfl hne
  | cons a as ih =>
      intro u g gf _ h
      rw [walkAcc] at h
      by_cases hc : a ∈ (pathsSP adj tc zocApp T bound).adj u ∧
          (pathsSP adj tc zocApp T bound).allowed u a g = true
      · rw [if_pos hc] at h
        cases has : as with
        | nil =>
            subst has
            simp only [walkAcc, Option.some.injEq] at h
            obtain ⟨w, htc, _, _, hb⟩ :=
              (pathsSP_allowed_iff _ _ _ _ _ u a g).mp hc.2
            rw [← h]
            show turnStep T (zocApp a) ((tc a).getD 0) g ≤ bound
            rw [htc]
            simp only [Option.getD_some]
            exact hb
        | cons b bs =>
            subst has
            exact ih a _ _ (by simp) h
      · rw [if_neg hc] at h
        simp at h

/-! ### Waypoint recording

A turn boundary falls at the current tile exactly when the next step's
accumulated count lies in a later turn; the engine records the boundary
waypoint at that tile with the (1-based) index of the turn being entered,
exactly the spec's re-queue bookkeeping. -/

/-- The turn-boundary waypoints the Reachability Engine records along a
stored route (`u` the current tile, `g` the accumulated count). -/
def mkWaypointsGo (T : ℕ) (zocApp : Fin n → Bool) (tc : Fin n → Option ℕ) :
    Fin n → ℕ → List (Fin n) → List (Fin n × waypoint)
  | _, _, [] => []
  | u, g, v :: q =>
      let g2 := turnStep T (zocApp v) ((tc v).getD 0) g
      (if turnIdx T g < turnIdx T g2 then
        [(u, ⟨(turnIdx T g2 : ℤ), zocApp u, false, false⟩)]
      else []) ++ mkWaypointsGo T zocApp tc v g2 q

/-- Insert one waypoint binding into a waypoint map (`std::map`
`operator[]` assignment: overwrite if present, insert otherwise). -/
def updWp {ν : Type} [DecidableEq ν] (m : ν → Option waypoint)
    (p : ν × waypoint) : ν → Option waypoint :=
  fun x => if x = p.1 then some p.2 else m x

/-- Insert a list of waypoint bindings in order. -/
def applyWps {ν : Type} [DecidableEq ν] (m : ν → Option waypoint)
    (l : List (ν × waypoint)) : ν → Option waypoint :=
  l.foldl updWp m

/-- Modelled from the spec: the `paths` constructor (declared at
`pathfind.hpp` lines 111-116; body missing from the sources).  The
external collaborators are consumed through narrow interfaces: `adj` is
tile adjacency with any teleport links folded in when `allow_teleport`
is set (per the spec teleports only change the adjacency relation),
`tc` is the mover's terrain cost per tile with impassable or
blocking-occupied tiles mapped to `none` (folding in `see_all` /
`ignore_units`), `zocRaw` is the `enemy_zoc` collaborator,
`skirmisher` the mover's exemption, `movement_left` / `T` the mover's
remaining and total movement, and `additional_turns` the turn horizon.
Every settled node of the engine yields a route annotated with its
turn-boundary waypoints and the movement left in the final turn. -/
def paths.compute (adj : Fin n → List (Fin n)) (tc : Fin n → Option ℕ)
    (zocRaw : Fin n → Bool) (src : Fin n)
    (force_ignore_zocs skirmisher : Bool) (movement_left T : ℕ)
    (additional_turns : ℕ) : paths (Fin n) :=
  let zocApp := zocApplies force_ignore_zocs skirmisher zocRaw
  let sp := pathsSP adj tc zocApp T ((additional_turns + 1) * T)
  { routes := fun dst =>
      ((searchResult sp src (T - movement_left)).find?
          (fun e => decide (e.node = dst))).map fun e =>
        { steps := e.path
          move_left := ((T - e.g % T) % T : ℕ)
          waypoints := applyWps (fun _ => none)
            (mkWaypointsGo T zocApp tc src (T - movement_left) e.path.tail) } }

/-- Modelled from the spec: `route_turns_to_complete` (declared at
`pathfind.hpp` lines 155-156; body missing from the sources).  Walks the
route with the same movement bookkeeping as the engine, recording a
waypoint with an incrementing turn counter at every tile where a turn
boundary falls, flagging per tile whether the stop was forced by a zone
of control and whether the tile triggers a capture or is invisible to
the viewing team (the external predicates `cap` and `inv`), always
recording the final tile, and returning the number of turns the route
takes; a tile whose terrain cost is missing or exceeds a whole turn's
allowance can never be entered and yields the error value `-1`. -/
def annGo (T : ℕ) (zocApp : Fin n → Bool) (tc : Fin n → Option ℕ)
    (cap inv : Fin n → Bool) :
    Fin n → ℕ → List (Fin n) → ℤ × List (Fin n × waypoint)
  | u, g, [] =>
      ((turnIdx T g : ℤ) + 1,
        [(u, ⟨(turnIdx T g : ℤ) + 1, zocApp u, cap u, inv u⟩)])
  | u, g, v :: q =>
      match tc v with
      | none => (-1, [])
      | some w =>
          if T < w then (-1, [])
          else
            let g2 := turnStep T (zocApp v) w g
            let r := annGo T zocApp tc cap inv v g2 q
            (r.1,
              (if turnIdx T g < turnIdx T g2 then
                [(u, ⟨(turnIdx T g2 : ℤ), zocApp u, cap u, inv u⟩)]
              else []) ++ r.2)

/-- Modelled from the spec: the annotator applied to a route.  It
returns the turn count and the route with its waypoint map extended
(insertions overwrite existing keys, the rest of the map is kept). -/
def route_turns_to_complete (tc : Fin n → Option ℕ)
    (zocApp cap inv : Fin n → Bool) (movement_left T : ℕ)
    (r : route (Fin n)) : ℤ × route (Fin n) :=
  match r.steps with
  | [] => (0, r)
  | s :: rest =>
      let a := annGo T zocApp tc cap inv s (T - movement_left) rest
      (a.1, { r with waypoints := applyWps r.waypoints a.2 })

/-- C3 (amended): every route stored in the Reachability Engine's result
mapping has minimal accumulated cost among all admissible multi-turn
routes to the same destination within the turn horizon; minimal global
cost also means no other such route needs fewer turns.  (The claim's
further tie-break on fewer steps fails, see the counterexample.) -/
theorem paths_routes_cost_minimal (adj : Fin n → List (Fin n))
    (tc : Fin n → Option ℕ) (zocRaw : Fin n → Bool) (src : Fin n)
    (force_ignore_zocs skirmisher : Bool) (movement_left T : ℕ)
    (additional_turns : ℕ) (dst : Fin n) (r : route (Fin n))
    (hr : (paths.compute adj tc zocRaw src force_ignore_zocs skirmisher
      movement_left T additional_turns).routes dst = some r) :
    ∃ gf,
      walkAcc (pathsSP adj tc (zocApplies force_ignore_zocs skirmisher zocRaw)
        T ((additional_turns + 1) * T)) src (T - movement_left)
        r.steps.tail = some gf ∧
      r.steps.head? = some src ∧
      ∀ (q : List (Fin n)) (gf' : ℕ),
        walkAcc (pathsSP adj tc
            (zocApplies force_ignore_zocs skirmisher zocRaw)
            T ((additional_turns + 1) * T)) src (T - movement_left) q =
          some gf' →
        endOf src q = dst → gf ≤ gf' := by
  simp only [paths.compute, Option.map_eq_some'] at hr
  obtain ⟨e, hfind, hre⟩ := hr
  have hmem : e ∈ searchResult
      (pathsSP adj tc (zocApplies force_ignore_zocs skirmisher zocRaw) T
        ((additional_turns + 1) * T)) src (T - movement_left) :=
    List.mem_of_find?_eq_some hfind
  have hnode : e.node = dst := by
    have := List.find?_some hfind
    simpa using this
  have inv := searchResult_inv src (T - movement_left)
    (pathsSP_ok adj tc (zocApplies force_ignore_zocs skirmisher zocRaw) T
      ((additional_turns + 1) * T))
  obtain ⟨q, hpath, hwalk, hend, _, _⟩ := inv.soundS e hmem
  have hsteps : r.steps = e.path := by rw [← hre]
  refine ⟨e.g, ?_, ?_, ?_⟩
  · rw [hsteps, hpath]
    exact hwalk
  · rw [hsteps, hpath]
    rfl
  · intro q' gf' hw' hend'
    exact inv.optS e hmem q' gf' hw' (by rw [hend', hnode])

/-! ### A concrete engine instance

Six tiles `s = 0, a = 1, b = 2, u = 3, c = 4, v = 5`; entering costs
1, 1, 1, 4, 5, 5 movement points respectively; edges
`s→a, s→c, a→b, b→u, c→u, u→v`; no zones of control; a mover with 10 of
10 movement points and a turn horizon of one additional turn. -/

def cexAdj : Fin 6 → List (Fin 6) := ![[1, 4], [2], [3], [5], [3], []]

def cexTc : Fin 6 → Option ℕ :=
  ![some 1, some 1, some 1, some 4, some 5, some 5]

/-- C3 counterexample: the engine stores the route
`[0, 1, 2, 3, 5]` (5 tiles, accumulated cost 15) for destination 5,
while the admissible route `[0, 4, 3, 5]` reaches the same destination
with the same accumulated cost 15 in fewer steps — so the stored route
is not tie-broken by fewer steps, refuting that part of the claim. -/
theorem paths_tie_break_steps_cex :
    (((paths.compute cexAdj cexTc (fun _ => false) 0 false false 10 10
          1).routes 5).map fun r => r.steps) = some [0, 1, 2, 3, 5] ∧
    walkAcc (pathsSP cexAdj cexTc (zocApplies false false fun _ => false)
        10 20) 0 0 [1, 2, 3, 5] = some 15 ∧
    walkAcc (pathsSP cexAdj cexTc (zocApplies false false fun _ => false)
        10 20) 0 0 [4, 3, 5] = some 15 ∧
    endOf (0 : Fin 6) [4, 3, 5] = 5 ∧
    [(0 : Fin 6), 4, 3, 5].length < [(0 : Fin 6), 1, 2, 3, 5].length := by
  refine ⟨?_, ?_, ?_, ?_, ?_⟩ <;> decide

/-- Witness for the amended C3 on the concrete engine instance. -/
theorem paths_routes_cost_minimal_witness :
    ∃ r, (paths.compute cexAdj cexTc (fun _ => false) 0 false false 10 10
        1).routes 5 = some r ∧
      ∃ gf,
        walkAcc (pathsSP cexAdj cexTc (zocApplies false false fun _ => false)
          10 ((1 + 1) * 10)) 0 (10 - 10) r.steps.tail = some gf ∧
        r.steps.head? = some 0 ∧
        ∀ (q : List (Fin 6)) (gf' : ℕ),
          walkAcc (pathsSP cexAdj cexTc
            (zocApplies false false fun _ => false) 10 ((1 + 1) * 10)) 0
            (10 - 10) q = some gf' →
          endOf 0 q = 5 → gf ≤ gf' := by
  cases hsome : (paths.compute cexAdj cexTc (fun _ => false) 0 false false
      10 10 1).routes 5 with
  | none =>
      exfalso
      have : ((paths.compute cexAdj cexTc (fun _ => false) 0 false false
          10 10 1).routes 5).isSome = true := by decide
      rw [hsome] at this
      simp at this
  | some r =>
      exact ⟨r, rfl, paths_routes_cost_minimal cexAdj cexTc (fun _ => false)
        0 false false 10 10 1 5 r hsome⟩

theorem turnIdx_eq_one (T g : ℕ) (h1 : T < g) (h2 : g ≤ 2 * T) :
    turnIdx T g = 1 := by
  unfold turnIdx
  have := Nat.div_eq_of_lt_le (by omega : 1 * T ≤ g - 1)
    (by omega : g - 1 < (1 + 1) * T)
  simpa using this

theorem turnIdx_zero (T : ℕ) : turnIdx T 0 = 0 := by
  simp [turnIdx]

/-- An engine step's accumulated count is the `turnStep` of the entered
tile's cost, and its turn index lies between those of the endpoints of
the walk. -/
theorem mkWaypointsGo_nil_of_turnIdx_eq {adj : Fin n → List (Fin n)}
    {tc : Fin n → Option ℕ} {zocApp : Fin n → Bool} {T bound : ℕ} :
    ∀ (q : List (Fin n)) (u : Fin n) (g gf : ℕ),
      walkAcc (pathsSP adj tc zocApp T bound) u g q = some gf →
      turnIdx T g = turnIdx T gf →
      mkWaypointsGo T zocApp tc u g q = [] := by
  intro q
  induction q with
  | nil => intro u g gf _ _; rfl
  | cons v q' ih =>
      intro u g gf hw heq
      rw [walkAcc] at hw
      by_cases hc : v ∈ (pathsSP adj tc zocApp T bound).adj u ∧
          (pathsSP adj tc zocApp T bound).allowed u v g = true
      · rw [if_pos hc] at hw
        obtain ⟨w, htc, hw1, _, _⟩ :=
          (pathsSP_allowed_iff _ _ _ _ _ u v g).mp hc.2
        have hstep : (pathsSP adj tc zocApp T bound).step u v g =
            turnStep T (zocApp v) ((tc v).getD 0) g := rfl
        have hle1 : g ≤ turnStep T (zocApp v) ((tc v).getD 0) g := by
          rw [htc]
          simp only [Option.getD_some]
          have := turnStep_ge T (zocApp v) w g hw1
          omega
        have hle2 : turnStep T (zocApp v) ((tc v).getD 0) g ≤ gf := by
          have := pathsWalk_le q' v _ _ hw
          rw [hstep] at this
          exact this
        have heq2 : turnIdx T (turnStep T (zocApp v) ((tc v).getD 0) g) =
            turnIdx T g := by
          have ha := turnIdx_mono T hle1
          have hb := turnIdx_mono T hle2
          omega
        simp only [mkWaypointsGo]
        rw [if_neg (by omega)]
        have hres := ih v ((pathsSP adj tc zocApp T bound).step u v g) gf hw
          (by rw [hstep, heq2]; exact heq)
        rw [hstep] at hres
        simpa using hres
      · rw [if_neg hc] at hw
        simp at hw

/-- On a walk that starts in the first turn and ends in the second, the
engine records exactly one turn-boundary waypoint: at the tile where the
first turn's allowance ran out, with turn index 1. -/
theorem mkWaypointsGo_singleton {adj : Fin n → List (Fin n)}
    {tc : Fin n → Option ℕ} {zocApp : Fin n → Bool} {T bound : ℕ} :
    ∀ (q : List (Fin n)) (u : Fin n) (g gf : ℕ),
      walkAcc (pathsSP adj tc zocApp T bound) u g q = some gf →
      turnIdx T g = 0 → turnIdx T gf = 1 →
      ∃ q1 v' q2 gx g2,
        q = q1 ++ v' :: q2 ∧
        walkAcc (pathsSP adj tc zocApp T bound) u g q1 = some gx ∧
        turnIdx T gx = 0 ∧
        walkAcc (pathsSP adj tc zocApp T bound) u g (q1 ++ [v']) = some g2 ∧
        turnIdx T g2 = 1 ∧
        mkWaypointsGo T zocApp tc u g q =
          [(endOf u q1, ⟨1, zocApp (endOf u q1), false, false⟩)] := by
  intro q
  induction q with
  | nil =>
      intro u g gf hw h0 h1
      simp only [walkAcc, Option.some.injEq] at hw
      rw [hw] at h0
      omega
  | cons v q' ih =>
      intro u g gf hw h0 h1
      rw [walkAcc] at hw
      by_cases hc : v ∈ (pathsSP adj tc zocApp T bound).adj u ∧
          (pathsSP adj tc zocApp T bound).allowed u v g = true
      · rw [if_pos hc] at hw
        have hstep : (pathsSP adj tc zocApp T bound).step u v g =
            turnStep T (zocApp v) ((tc v).getD 0) g := rfl
        set g2s := turnStep T (zocApp v) ((tc v).getD 0) g with hg2s
        have hwq : walkAcc (pathsSP adj tc zocApp T bound) v g2s q' =
            some gf := hw
        have hle2 : g2s ≤ gf := pathsWalk_le q' v _ _ hwq
        have hup : turnIdx T g2s ≤ 1 := by
          have := turnIdx_mono T hle2
          omega
        by_cases hidx : turnIdx T g2s = 0
        · obtain ⟨q1, v', q2, gx, g2, hsplit, hwx, hix, hwv, hig, hmk⟩ :=
            ih v g2s gf hwq hidx h1
          refine ⟨v :: q1, v', q2, gx, g2, by simp [hsplit], ?_, hix, ?_,
            hig, ?_⟩
          · rw [walkAcc, if_pos hc]
            exact hwx
          · rw [List.cons_append, walkAcc, if_pos hc]
            exact hwv
          · simp only [mkWaypointsGo]
            rw [if_neg (by rw [h0, ← hg2s]; omega)]
            show mkWaypointsGo T zocApp tc v g2s q' = _
            rw [hmk]
            rfl
        · have hone : turnIdx T g2s = 1 := by omega
          refine ⟨[], v, q', g, g2s, rfl, rfl, h0, ?_, hone, ?_⟩
          · simp only [List.nil_append]
            rw [walkAcc, if_pos hc, walkAcc]
            rw [hstep]
          · simp only [mkWaypointsGo]
            rw [if_pos (by rw [h0, ← hg2s]; omega)]
            have hrest := mkWaypointsGo_nil_of_turnIdx_eq q' v g2s gf hwq
              (by rw [hone, h1])
            rw [← hg2s, hrest]
            simp [endOf, hone]
      · rw [if_neg hc] at hw
        simp at hw

/-- Raising the turn-horizon bound preserves admissible walks and their
accumulated counts. -/
theorem pathsWalk_mono_bound {adj : Fin n → List (Fin n)}
    {tc : Fin n → Option ℕ} {zocApp : Fin n → Bool} {T b b' : ℕ}
    (hbb : b ≤ b') :
    ∀ (q : List (Fin n)) (u : Fin n) (g gf : ℕ),
      walkAcc (pathsSP adj tc zocApp T b) u g q = some gf →
      walkAcc (pathsSP adj tc zocApp T b') u g q = some gf := by
  intro q
  induction q with
  | nil => intro u g gf h; exact h
  | cons v q' ih =>
      intro u g gf h
      rw [walkAcc] at h
      by_cases hc : v ∈ (pathsSP adj tc zocApp T b).adj u ∧
          (pathsSP adj tc zocApp T b).allowed u v g = true
      · rw [if_pos hc] at h
        obtain ⟨w, htc, hw1, hwT, hb⟩ :=
          (pathsSP_allowed_iff _ _ _ _ _ u v g).mp hc.2
        have hal' : (pathsSP adj tc zocApp T b').allowed u v g = true :=
          (pathsSP_allowed_iff _ _ _ _ _ u v g).mpr
            ⟨w, htc, hw1, hwT, le_trans hb hbb⟩
        rw [walkAcc, if_pos ⟨hc.1, hal'⟩]
        exact ih v _ gf h
      · rw [if_neg hc] at h
        simp at h

/-- Each engine step costs at least one movement point. -/
theorem pathsWalk_length_le {adj : Fin n → List (Fin n)}
    {tc : Fin n → Option ℕ} {zocApp : Fin n → Bool} {T bound : ℕ} :
    ∀ (q : List (Fin n)) (u : Fin n) (g gf : ℕ),
      walkAcc (pathsSP adj tc zocApp T bound) u g q = some gf →
      g + q.length ≤ gf := by
  intro q
  induction q with
  | nil =>
      intro u g gf h
      simp only [walkAcc, Option.some.injEq] at h
      simp [← h]
  | cons v q' ih =>
      intro u g gf h
      rw [walkAcc] at h
      by_cases hc : v ∈ (pathsSP adj tc zocApp T bound).adj u ∧
          (pathsSP adj tc zocApp T bound).allowed u v g = true
      · rw [if_pos hc] at h
        obtain ⟨w, htc, hw1, _, _⟩ :=
          (pathsSP_allowed_iff _ _ _ _ _ u v g).mp hc.2
        have h2 : g + 1 ≤ (pathsSP adj tc zocApp T bound).step u v g := by
          show g + 1 ≤ turnStep T (zocApp v) ((tc v).getD 0) g
          rw [htc]
          simp only [Option.getD_some]
          exact turnStep_ge T (zocApp v) w g hw1
        have h3 := ih v _ gf h
        simp only [List.length_cons]
        omega
      · rw [if_neg hc] at h
        simp at h

/-- C4: a destination needing more movement than one turn's allowance
but reachable within two (for a mover starting with full movement) is
present in the horizon-1 result with exactly one turn-boundary waypoint,
recorded with turn index 1 at the tile where the first turn's allowance
was exhausted, and is absent from the horizon-0 result. -/
theorem paths_two_turn_destination (adj : Fin n → List (Fin n))
    (tc : Fin n → Option ℕ) (zocRaw : Fin n → Bool) (src : Fin n)
    (force_ignore_zocs skirmisher : Bool) (T : ℕ) (dst : Fin n)
    (hreach : ∃ q gf,
      walkAcc (pathsSP adj tc (zocApplies force_ignore_zocs skirmisher zocRaw)
        T ((1 + 1) * T)) src 0 q = some gf ∧ endOf src q = dst)
    (hfar : ∀ (q : List (Fin n)) (gf : ℕ),
      walkAcc (pathsSP adj tc (zocApplies force_ignore_zocs skirmisher zocRaw)
        T ((1 + 1) * T)) src 0 q = some gf → endOf src q = dst → T < gf) :
    (∃ r, (paths.compute adj tc zocRaw src force_ignore_zocs skirmisher T T
        1).routes dst = some r ∧
      ∃ x wp,
        mkWaypointsGo T (zocApplies force_ignore_zocs skirmisher zocRaw) tc
          src 0 r.steps.tail = [(x, wp)] ∧
        r.waypoints x = some wp ∧ wp.turns = 1 ∧
        (∃ q1 v' q2 gx g2,
          r.steps = src :: (q1 ++ v' :: q2) ∧ endOf src q1 = x ∧
          walkAcc (pathsSP adj tc
              (zocApplies force_ignore_zocs skirmisher zocRaw) T
              ((1 + 1) * T)) src 0 q1 = some gx ∧ gx ≤ T ∧
          walkAcc (pathsSP adj tc
              (zocApplies force_ignore_zocs skirmisher zocRaw) T
              ((1 + 1) * T)) src 0 (q1 ++ [v']) = some g2 ∧ T < g2) ∧
        x ∈ r.steps.dropLast) ∧
    (paths.compute adj tc zocRaw src force_ignore_zocs skirmisher T T
      0).routes dst = none := by
  set zocApp := zocApplies force_ignore_zocs skirmisher zocRaw with hza
  have hT : 0 < T := by
    obtain ⟨q0, gf0, hw0, hend0⟩ := hreach
    by_contra hc
    have hT0 : T = 0 := by omega
    cases hq0 : q0 with
    | nil =>
        subst hq0
        simp only [walkAcc, Option.some.injEq] at hw0
        have := hfar [] 0 rfl hend0
        omega
    | cons a as =>
        subst hq0
        have h1 := pathsWalk_bound (a :: as) src 0 gf0 (by simp) hw0
        have h2 := hfar (a :: as) gf0 hw0 hend0
        omega
  constructor
  · obtain ⟨q0, gf0, hw0, hend0⟩ := hreach
    have hok := pathsSP_ok adj tc zocApp T ((1 + 1) * T)
    have hsettled : dst ∈ settledNodes
        (searchResult (pathsSP adj tc zocApp T ((1 + 1) * T)) src 0) := by
      have := searchResult_complete src 0 hok q0 gf0 hw0
      rwa [hend0] at this
    simp only [paths.compute, Nat.sub_self, ← hza]
    cases hfind : (searchResult (pathsSP adj tc zocApp T ((1 + 1) * T)) src
        0).find? (fun e => decide (e.node = dst)) with
    | none =>
        exfalso
        obtain ⟨e, he, henode⟩ := settledNodes_mem hsettled
        have := List.find?_eq_none.mp hfind e he
        simp [henode] at this
    | some e =>
        have hmem : e ∈ searchResult (pathsSP adj tc zocApp T ((1 + 1) * T))
            src 0 := List.mem_of_find?_eq_some hfind
        have hnode : e.node = dst := by
          have := List.find?_some hfind
          simpa using this
        have inv := searchResult_inv src 0 hok
        obtain ⟨q, hpath, hwalk, hend, _, _⟩ := inv.soundS e hmem
        have hqne : q ≠ [] := by
          intro hq
          subst hq
          simp only [walkAcc, Option.some.injEq] at hwalk
          have := hfar [] 0 rfl (by rw [hend, hnode])
          omega
        have hfar1 : T < e.g := hfar q e.g hwalk (by rw [hend, hnode])
        have hbd : e.g ≤ (1 + 1) * T := pathsWalk_bound q src 0 e.g hqne hwalk
        have hτ1 : turnIdx T e.g = 1 :=
          turnIdx_eq_one T e.g hfar1 (by omega)
        obtain ⟨q1, v', q2, gx, g2, hsplit, hwx, hix, hwv, hig, hmk⟩ :=
          mkWaypointsGo_singleton q src 0 e.g hwalk (turnIdx_zero T) hτ1
        refine ⟨_, rfl, endOf src q1,
          ⟨1, zocApp (endOf src q1), false, false⟩, ?_, ?_, rfl, ?_, ?_⟩
        · show mkWaypointsGo T zocApp tc src 0 e.path.tail = _
          rw [hpath]
          simpa using hmk
        · show applyWps (fun _ => none)
            (mkWaypointsGo T zocApp tc src 0 e.path.tail) _ = _
          rw [hpath]
          simp only [List.tail_cons, hmk]
          simp [applyWps, updWp]
        · refine ⟨q1, v', q2, gx, g2, ?_, rfl, hwx, ?_, hwv, ?_⟩
          · show e.path = _
            rw [hpath, hsplit]
          · simp only [turnIdx] at hix
            have := (Nat.div_eq_zero_iff hT).mp hix
            omega
          · simp only [turnIdx] at hig
            have h1 : 1 ≤ (g2 - 1) / T := by omega
            have h2 := (Nat.le_div_iff_mul_le hT).mp h1
            have h3 : 0 < g2 := by
              have := pathsWalk_lt (q1 ++ [v']) src 0 g2 (by simp) hwv
              omega
            omega
        · show endOf src q1 ∈ e.path.dropLast
          rw [hpath, hsplit]
          have hrw : src :: (q1 ++ v' :: q2) = (src :: q1) ++ v' :: q2 := by
            simp
          rw [hrw, List.dropLast_append_cons]
          exact List.mem_append_left _ (endOf_mem src q1)
  · simp only [paths.compute, Nat.sub_self, ← hza]
    cases hfind : (searchResult (pathsSP adj tc zocApp T ((0 + 1) * T)) src
        0).find? (fun e => decide (e.node = dst)) with
    | none => simp [hfind]
    | some e =>
        exfalso
        have hmem : e ∈ searchResult (pathsSP adj tc zocApp T ((0 + 1) * T))
            src 0 := List.mem_of_find?_eq_some hfind
        have hnode : e.node = dst := by
          have := List.find?_some hfind
          simpa using this
        obtain ⟨q, hpath, hwalk, hend⟩ := searchResult_sound e hmem
        have hqne : q ≠ [] := by
          intro hq
          subst hq
          simp only [walkAcc, Option.some.injEq] at hwalk
          have := hfar [] 0 rfl (by rw [hend, hnode])
          omega
        have hbd : e.g ≤ (0 + 1) * T := pathsWalk_bound q src 0 e.g hqne hwalk
        have hw1 : walkAcc (pathsSP adj tc zocApp T ((1 + 1) * T)) src 0 q =
            some e.g := pathsWalk_mono_bound (by omega) q src 0 e.g hwalk
        have := hfar q e.g hw1 (by rw [hend, hnode])
        omega

/-- On a graph whose edges increase the tile index by at most one, the
end of a walk is bounded by its length. -/
theorem walk_endOf_val_le (sp : SP n C P)
    (hadj : ∀ u v : Fin n, v ∈ sp.adj u → v.val ≤ u.val + 1) :
    ∀ (q : List (Fin n)) (u : Fin n) (g gf : C),
      walkAcc sp u g q = some gf → (endOf u q).val ≤ u.val + q.length := by
  intro q
  induction q with
  | nil => intro u g gf _; simp [endOf]
  | cons v q' ih =>
      intro u g gf h
      rw [walkAcc] at h
      by_cases hc : v ∈ sp.adj u ∧ sp.allowed u v g = true
      · rw [if_pos hc] at h
        have h1 := ih v _ gf h
        have h2 := hadj u v hc.1
        show (endOf v q').val ≤ u.val + (q'.length + 1)
        omega
      · rw [if_neg hc] at h
        simp at h

/-- Scenario C's map: a line of six tiles, each costing one movement
point, for a mover with three movement points per turn. -/
def lineAdj : Fin 6 → List (Fin 6) := ![[1], [2], [3], [4], [5], []]

def lineTc : Fin 6 → Option ℕ := fun _ => some 1

/-- Witness for C4: on the six-tile line with per-tile cost 1 and three
movement points per turn, tile 5 costs five points: it is reachable with
one additional turn but not in the current turn alone. -/
theorem paths_two_turn_destination_witness :
    (∃ r, (paths.compute lineAdj lineTc (fun _ => false) 0 false false 3 3
        1).routes 5 = some r ∧
      ∃ x wp,
        mkWaypointsGo 3 (zocApplies false false fun _ => false) lineTc
          0 0 r.steps.tail = [(x, wp)] ∧
        r.waypoints x = some wp ∧ wp.turns = 1 ∧
        (∃ q1 v' q2 gx g2,
          r.steps = 0 :: (q1 ++ v' :: q2) ∧ endOf 0 q1 = x ∧
          walkAcc (pathsSP lineAdj lineTc
              (zocApplies false false fun _ => false) 3
              ((1 + 1) * 3)) 0 0 q1 = some gx ∧ gx ≤ 3 ∧
          walkAcc (pathsSP lineAdj lineTc
              (zocApplies false false fun _ => false) 3
              ((1 + 1) * 3)) 0 0 (q1 ++ [v']) = some g2 ∧ 3 < g2) ∧
        x ∈ r.steps.dropLast) ∧
    (paths.compute lineAdj lineTc (fun _ => false) 0 false false 3 3
      0).routes 5 = none := by
  apply paths_two_turn_destination lineAdj lineTc (fun _ => false) 0 false
    false 3 5
  · exact ⟨[1, 2, 3, 4, 5], 5, by decide, by decide⟩
  · intro q gf hw hend
    have h1 := pathsWalk_length_le q 0 0 gf hw
    have h2 := walk_endOf_val_le _ (by decide) q 0 0 gf hw
    rw [hend] at h2
    have h3 : (5 : Fin 6).val = 5 := rfl
    have h4 : (0 : Fin 6).val = 0 := rfl
    omega

/-- C5: along any route stored by the Reachability Engine, a step that
enters a tile where the zone-of-control rule applies (ZOC not ignored,
mover not exempt, tile in an enemy zone of control) leaves the
accumulated count at a full-turn boundary — all remaining movement for
that turn is consumed — so every later step of the route falls in a
strictly later turn. -/
theorem zoc_entry_ends_turn (adj : Fin n → List (Fin n))
    (tc : Fin n → Option ℕ) (zocRaw : Fin n → Bool) (src : Fin n)
    (force_ignore_zocs skirmisher : Bool) (movement_left T : ℕ)
    (additional_turns : ℕ) (dst : Fin n) (r : route (Fin n))
    (hr : (paths.compute adj tc zocRaw src force_ignore_zocs skirmisher
      movement_left T additional_turns).routes dst = some r)
    (i j : ℕ) (hi : i < r.steps.tail.length) (hj : j < r.steps.tail.length)
    (hij : i < j) (x : Fin n) (hxi : r.steps.tail[i]? = some x)
    (hzoc : zocApplies force_ignore_zocs skirmisher zocRaw x = true)
    (gi gj : ℕ)
    (hwi : walkAcc (pathsSP adj tc
        (zocApplies force_ignore_zocs skirmisher zocRaw) T
        ((additional_turns + 1) * T)) src (T - movement_left)
      (r.steps.tail.take (i + 1)) = some gi)
    (hwj : walkAcc (pathsSP adj tc
        (zocApplies force_ignore_zocs skirmisher zocRaw) T
        ((additional_turns + 1) * T)) src (T - movement_left)
      (r.steps.tail.take (j + 1)) = some gj) :
    turnIdx T gi < turnIdx T gj := by
  set zocApp := zocApplies force_ignore_zocs skirmisher zocRaw with hza
  set sp := pathsSP adj tc zocApp T ((additional_turns + 1) * T) with hsp
  set q := r.steps.tail with hq
  -- the step entering the ZOC tile leaves the count at a multiple of T
  have hxq : q[i] = x := by
    have h1 : q[i]? = some q[i] := List.getElem?_eq_getElem hi
    rw [hxi] at h1
    exact (Option.some_inj.mp h1).symm
  have htake : q.take i ++ [q[i]] = q.take (i + 1) := by
    have h := List.take_concat_get q i hi
    simpa [List.concat_eq_append] using h
  rw [← htake] at hwi
  rw [walkAcc_concat_iff] at hwi
  obtain ⟨gp, hwp, hin, hal, hgi⟩ := hwi
  obtain ⟨w, htc, hw1, hwT, _⟩ :=
    (pathsSP_allowed_iff _ _ _ _ _ _ _ _).mp hal
  have hT : 0 < T := by omega
  have hdvd : T ∣ gi := by
    rw [hgi]
    show T ∣ turnStep T (zocApp q[i]) ((tc q[i]).getD 0) gp
    rw [htc]
    simp only [Option.getD_some]
    rw [hxq, hzoc]
    exact turnStep_zoc_dvd T w gp hT
  have hgi1 : 1 ≤ gi := by
    rw [hgi]
    show 1 ≤ turnStep T (zocApp q[i]) ((tc q[i]).getD 0) gp
    rw [htc]
    simp only [Option.getD_some]
    have := turnStep_ge T (zocApp q[i]) w gp hw1
    omega
  -- every later prefix accumulates strictly more
  have hsplitq : q.take (j + 1) = q.take (i + 1) ++ (q.drop (i + 1)).take
      (j - i) := by
    rw [← List.take_add]
    congr 1
    omega
  rw [hsplitq] at hwj
  obtain ⟨gmid, hmid, hrest⟩ := walkAcc_prefix sp hwj
  rw [← htake, walkAcc_concat_iff] at hmid
  obtain ⟨gp2, hwp2, _, _, hgmid⟩ := hmid
  have hgp : gp2 = gp := by
    rw [hwp] at hwp2
    exact (Option.some_inj.mp hwp2).symm
  have hgig : gmid = gi := by rw [hgmid, hgp, ← hgi]
  have hmidne : (q.drop (i + 1)).take (j - i) ≠ [] := by
    have hlen : ((q.drop (i + 1)).take (j - i)).length =
        min (j - i) (q.length - (i + 1)) := by
      simp [List.length_take, List.length_drop]
    intro hcon
    rw [hcon] at hlen
    simp only [List.length_nil] at hlen
    omega
  have hlt : gmid < gj := pathsWalk_lt _ _ _ _ hmidne hrest
  obtain ⟨c, hc⟩ := hdvd
  have hc1 : 0 < c := by
    by_contra hcon
    have hcz : c = 0 := by omega
    rw [hcz, Nat.mul_zero] at hc
    omega
  have hcc : c * T < gj := by
    rw [Nat.mul_comm]
    omega
  have := turnIdx_lt_of_mul_le T c gj hT hc1 hcc
  rw [hc, Nat.mul_comm]
  exact this

/-- A three-tile line whose middle tile is inside an enemy zone of
control. -/
def zocAdj : Fin 3 → List (Fin 3) := ![[1], [2], []]

def zocTc : Fin 3 → Option ℕ := fun _ => some 1

def zocRawDemo : Fin 3 → Bool := ![false, true, false]

/-- Witness for C5: entering the ZOC tile 1 consumes the rest of the
turn, so the following step into tile 2 falls in the next turn. -/
theorem zoc_entry_ends_turn_witness :
    ∃ r, (paths.compute zocAdj zocTc zocRawDemo 0 false false 3 3
        1).routes 2 = some r ∧
      ∃ gi gj,
        walkAcc (pathsSP zocAdj zocTc (zocApplies false false zocRawDemo) 3
          ((1 + 1) * 3)) 0 (3 - 3) (r.steps.tail.take (0 + 1)) = some gi ∧
        walkAcc (pathsSP zocAdj zocTc (zocApplies false false zocRawDemo) 3
          ((1 + 1) * 3)) 0 (3 - 3) (r.steps.tail.take (1 + 1)) = some gj ∧
        turnIdx 3 gi < turnIdx 3 gj := by
  cases hsome : (paths.compute zocAdj zocTc zocRawDemo 0 false false 3 3
      1).routes 2 with
  | none =>
      exfalso
      have : ((paths.compute zocAdj zocTc zocRawDemo 0 false false 3 3
          1).routes 2).isSome = true := by decide
      rw [hsome] at this
      simp at this
  | some r =>
      have hsteps : r.steps = [0, 1, 2] := by
        have h1 : ((paths.compute zocAdj zocTc zocRawDemo 0 false false 3 3
            1).routes 2).map (fun r => r.steps) = some [0, 1, 2] := by decide
        rw [hsome] at h1
        simpa using h1
      have hi : (0 : ℕ) < r.steps.tail.length := by rw [hsteps]; decide
      have hj : (1 : ℕ) < r.steps.tail.length := by rw [hsteps]; decide
      refine ⟨r, rfl, 3, 4, ?_, ?_, ?_⟩
      · rw [hsteps]
        decide
      · rw [hsteps]
        decide
      · apply zoc_entry_ends_turn zocAdj zocTc zocRawDemo 0 false false 3 3
          1 2 r hsome 0 1 hi hj (by omega) 1
        · rw [hsteps]
          decide
        · decide
        · rw [hsteps]
          decide
        · rw [hsteps]
          decide

/-! ### The annotator rewrites the same bindings on a second pass -/

theorem applyWps_eq_of_not_mem {ν : Type} [DecidableEq ν] :
    ∀ (l : List (ν × waypoint)) (m : ν → Option waypoint) (x : ν),
      x ∉ l.map Prod.fst → applyWps m l x = m x := by
  intro l
  induction l with
  | nil => intro m x _; rfl
  | cons p ps ih =>
      intro m x hx
      simp only [List.map_cons, List.mem_cons] at hx
      push_neg at hx
      show applyWps (updWp m p) ps x = m x
      rw [ih _ x hx.2]
      simp [updWp, hx.1]

theorem applyWps_eq_of_mem {ν : Type} [DecidableEq ν] :
    ∀ (l : List (ν × waypoint)) (m m' : ν → Option waypoint) (x : ν),
      x ∈ l.map Prod.fst → applyWps m l x = applyWps m' l x := by
  intro l
  induction l with
  | nil => intro m m' x hx; simp at hx
  | cons p ps ih =>
      intro m m' x hx
      by_cases hx2 : x ∈ ps.map Prod.fst
      · exact ih _ _ x hx2
      · have hxp : x = p.1 := by
          simp only [List.map_cons, List.mem_cons] at hx
          tauto
        show applyWps (updWp m p) ps x = applyWps (updWp m' p) ps x
        rw [applyWps_eq_of_not_mem ps _ x hx2,
          applyWps_eq_of_not_mem ps _ x hx2]
        simp [updWp, hxp]

theorem applyWps_idem {ν : Type} [DecidableEq ν]
    (m : ν → Option waypoint) (l : List (ν × waypoint)) :
    applyWps (applyWps m l) l = applyWps m l := by
  funext x
  by_cases hx : x ∈ l.map Prod.fst
  · exact applyWps_eq_of_mem l _ m x hx
  · rw [applyWps_eq_of_not_mem l _ x hx]

/-- C6: `route_turns_to_complete` is idempotent — annotating an
already-annotated route a second time with the same unit, viewing team,
unit map, teams and map returns the same turn count and leaves the
waypoint data identical to the first application. -/
theorem route_turns_to_complete_idempotent (tc : Fin n → Option ℕ)
    (zocApp cap inv : Fin n → Bool) (movement_left T : ℕ)
    (r : route (Fin n)) :
    route_turns_to_complete tc zocApp cap inv movement_left T
        (route_turns_to_complete tc zocApp cap inv movement_left T r).2 =
      route_turns_to_complete tc zocApp cap inv movement_left T r := by
  cases hs : r.steps with
  | nil =>
      simp only [route_turns_to_complete, hs]
  | cons s rest =>
      simp only [route_turns_to_complete, hs]
      rw [applyWps_idem]

/-! ### Annotated waypoints along an engine route -/

/-- Along an admissible engine walk the annotator never hits its error
branches: it records waypoints at exactly the tiles where the engine
records its turn-boundary waypoints, followed by the final tile's
waypoint, and returns the 1-based index of the final turn. -/
theorem annGo_split_of_walk {adj : Fin n → List (Fin n)}
    {tc : Fin n → Option ℕ} {zocApp : Fin n → Bool} {T bound : ℕ}
    (cap inv : Fin n → Bool) :
    ∀ (q : List (Fin n)) (u : Fin n) (g gf : ℕ),
      walkAcc (pathsSP adj tc zocApp T bound) u g q = some gf →
      (annGo T zocApp tc cap inv u g q).1 = (turnIdx T gf : ℤ) + 1 ∧
      ∃ l, (annGo T zocApp tc cap inv u g q).2 =
          l ++ [(endOf u q, ⟨(turnIdx T gf : ℤ) + 1, zocApp (endOf u q),
            cap (endOf u q), inv (endOf u q)⟩)] ∧
        l.map Prod.fst = (mkWaypointsGo T zocApp tc u g q).map Prod.fst := by
  intro q
  induction q with
  | nil =>
      intro u g gf hw
      simp only [walkAcc, Option.some.injEq] at hw
      subst hw
      exact ⟨rfl, [], rfl, rfl⟩
  | cons v q' ih =>
      intro u g gf hw
      rw [walkAcc] at hw
      by_cases hc : v ∈ (pathsSP adj tc zocApp T bound).adj u ∧
          (pathsSP adj tc zocApp T bound).allowed u v g = true
      · rw [if_pos hc] at hw
        obtain ⟨w, htc, hw1, hwT, _⟩ :=
          (pathsSP_allowed_iff _ _ _ _ _ u v g).mp hc.2
        have hstep : (pathsSP adj tc zocApp T bound).step u v g =
            turnStep T (zocApp v) w g := by
          show turnStep T (zocApp v) ((tc v).getD 0) g = _
          rw [htc]
          simp only [Option.getD_some]
        rw [hstep] at hw
        obtain ⟨ih1, l', hl1, hl2⟩ := ih v (turnStep T (zocApp v) w g) gf hw
        constructor
        · show (annGo T zocApp tc cap inv u g (v :: q')).1 = _
          simp only [annGo, htc, if_neg (by omega : ¬ T < w)]
          exact ih1
        · refine ⟨(if turnIdx T g < turnIdx T (turnStep T (zocApp v) w g)
            then [(u, ⟨(turnIdx T (turnStep T (zocApp v) w g) : ℤ),
              zocApp u, cap u, inv u⟩)] else []) ++ l', ?_, ?_⟩
          · show (annGo T zocApp tc cap inv u g (v :: q')).2 = _
            simp only [annGo, htc, if_neg (by omega : ¬ T < w)]
            rw [hl1, endOf]
            simp [List.append_assoc]
          · simp only [mkWaypointsGo, htc, Option.getD_some, List.map_append,
              hl2]
            congr 1
            by_cases hrec : turnIdx T g <
                turnIdx T (turnStep T (zocApp v) w g)
            · rw [if_pos hrec, if_pos hrec]
              simp
            · rw [if_neg hrec, if_neg hrec]
      · rw [if_neg hc] at hw
        simp at hw

/-- Every waypoint the annotator records along an admissible walk has a
turn index strictly greater than that of the walk's starting count. -/
theorem annGo_turns_gt {adj : Fin n → List (Fin n)}
    {tc : Fin n → Option ℕ} {zocApp : Fin n → Bool} {T bound : ℕ}
    (cap inv : Fin n → Bool) :
    ∀ (q : List (Fin n)) (u : Fin n) (g gf : ℕ),
      walkAcc (pathsSP adj tc zocApp T bound) u g q = some gf →
      ∀ p ∈ (annGo T zocApp tc cap inv u g q).2,
        (turnIdx T g : ℤ) < p.2.turns := by
  intro q
  induction q with
  | nil =>
      intro u g gf _ p hp
      have : p = (u, ⟨(turnIdx T g : ℤ) + 1, zocApp u, cap u, inv u⟩) := by
        simpa [annGo] using hp
      subst this
      simp
  | cons v q' ih =>
      intro u g gf hw p hp
      rw [walkAcc] at hw
      by_cases hc : v ∈ (pathsSP adj tc zocApp T bound).adj u ∧
          (pathsSP adj tc zocApp T bound).allowed u v g = true
      · rw [if_pos hc] at hw
        obtain ⟨w, htc, hw1, hwT, _⟩ :=
          (pathsSP_allowed_iff _ _ _ _ _ u v g).mp hc.2
        have hstep : (pathsSP adj tc zocApp T bound).step u v g =
            turnStep T (zocApp v) w g := by
          show turnStep T (zocApp v) ((tc v).getD 0) g = _
          rw [htc]
          simp only [Option.getD_some]
        rw [hstep] at hw
        have hg2 : g ≤ turnStep T (zocApp v) w g := by
          have := turnStep_ge T (zocApp v) w g hw1
          omega
        have hτ : turnIdx T g ≤ turnIdx T (turnStep T (zocApp v) w g) :=
          turnIdx_mono T hg2
        simp only [annGo, htc, if_neg (by omega : ¬ T < w)] at hp
        rw [List.mem_append] at hp
        rcases hp with hp | hp
        · by_cases hrec : turnIdx T g < turnIdx T (turnStep T (zocApp v) w g)
          · rw [if_pos hrec] at hp
            have : p = (u, ⟨(turnIdx T (turnStep T (zocApp v) w g) : ℤ),
                zocApp u, cap u, inv u⟩) := by simpa using hp
            subst this
            simpa using hrec
          · rw [if_neg hrec] at hp
            simp at hp
        · have := ih v (turnStep T (zocApp v) w g) gf hw p hp
          have hcast : (turnIdx T g : ℤ) ≤
              (turnIdx T (turnStep T (zocApp v) w g) : ℤ) := by
            exact_mod_cast hτ
          omega
      · rw [if_neg hc] at hw
        simp at hw

/-- The annotator only records waypoints at tiles of the route. -/
theorem annGo_fst_subset {tc : Fin n → Option ℕ} {zocApp : Fin n → Bool}
    {T : ℕ} (cap inv : Fin n → Bool) :
    ∀ (q : List (Fin n)) (u : Fin n) (g : ℕ),
      ∀ p ∈ (annGo T zocApp tc cap inv u g q).2, p.1 ∈ u :: q := by
  intro q
  induction q with
  | nil =>
      intro u g p hp
      have : p = (u, ⟨(turnIdx T g : ℤ) + 1, zocApp u, cap u, inv u⟩) := by
        simpa [annGo] using hp
      subst this
      simp
  | cons v q' ih =>
      intro u g p hp
      cases htc : tc v with
      | none =>
          simp [annGo, htc] at hp
      | some w =>
          simp only [annGo, htc] at hp
          by_cases hTw : T < w
          · rw [if_pos hTw] at hp
            simp at hp
          · rw [if_neg hTw] at hp
            simp only [List.mem_append] at hp
            rcases hp with hp | hp
            · by_cases hrec : turnIdx T g <
                  turnIdx T (turnStep T (zocApp v) w g)
              · rw [if_pos hrec] at hp
                have : p = (u, ⟨(turnIdx T (turnStep T (zocApp v) w g) : ℤ),
                    zocApp u, cap u, inv u⟩) := by simpa using hp
                subst this
                simp
              · rw [if_neg hrec] at hp
                simp at hp
            · have := ih v (turnStep T (zocApp v) w g) p hp
              rcases List.mem_cons.mp this with h | h
              · simp [h]
              · simp only [List.mem_cons]
                tauto

theorem applyWps_mem_of_mem_keys {ν : Type} [DecidableEq ν] :
    ∀ (l : List (ν × waypoint)) (m : ν → Option waypoint) (x : ν),
      x ∈ l.map Prod.fst →
      ∃ p ∈ l, p.1 = x ∧ applyWps m l x = some p.2 := by
  intro l
  induction l with
  | nil => intro m x hx; simp at hx
  | cons p ps ih =>
      intro m x hx
      by_cases hx2 : x ∈ ps.map Prod.fst
      · obtain ⟨p', hp', he, hv⟩ := ih (updWp m p) x hx2
        exact ⟨p', List.mem_cons_of_mem _ hp', he, hv⟩
      · have hxp : x = p.1 := by
          simp only [List.map_cons, List.mem_cons] at hx
          tauto
        refine ⟨p, List.mem_cons_self _ _, hxp.symm, ?_⟩
        show applyWps (updWp m p) ps x = some p.2
        rw [applyWps_eq_of_not_mem ps _ x hx2]
        simp [updWp, hxp]

theorem applyWps_append {ν : Type} [DecidableEq ν]
    (m : ν → Option waypoint) (l₁ l₂ : List (ν × waypoint)) :
    applyWps m (l₁ ++ l₂) = applyWps (applyWps m l₁) l₂ :=
  List.foldl_append _ _ _ _

/-- Waypoint bindings looked up along an annotated route are strictly
increasing in the turn index: the key positional induction behind the
turn-boundary invariant. -/
theorem annGo_map_increasing {adj : Fin n → List (Fin n)}
    {tc : Fin n → Option ℕ} {zocApp : Fin n → Bool} {T bound : ℕ}
    (cap inv : Fin n → Bool) :
    ∀ (q : List (Fin n)) (u : Fin n) (g gf : ℕ)
      (m₀ : Fin n → Option waypoint),
      walkAcc (pathsSP adj tc zocApp T bound) u g q = some gf →
      (u :: q).Nodup →
      (∀ x ∈ u :: q, m₀ x ≠ none →
        x ∈ (annGo T zocApp tc cap inv u g q).2.map Prod.fst) →
      ∀ (i j : ℕ) (hi : i < (u :: q).length) (hj : j < (u :: q).length),
        i < j →
        ∀ wi wj,
          applyWps m₀ (annGo T zocApp tc cap inv u g q).2
            ((u :: q).get ⟨i, hi⟩) = some wi →
          applyWps m₀ (annGo T zocApp tc cap inv u g q).2
            ((u :: q).get ⟨j, hj⟩) = some wj →
          wi.turns < wj.turns := by
  intro q
  induction q with
  | nil =>
      intro u g gf m₀ _ _ _ i j hi hj hij wi wj _ _
      simp only [List.length_singleton] at hi hj
      omega
  | cons v q' ih =>
      intro u g gf m₀ hw hnd hm i j hi hj hij wi wj hbi hbj
      rw [walkAcc] at hw
      by_cases hc : v ∈ (pathsSP adj tc zocApp T bound).adj u ∧
          (pathsSP adj tc zocApp T bound).allowed u v g = true
      case neg => rw [if_neg hc] at hw; simp at hw
      rw [if_pos hc] at hw
      obtain ⟨w, htc, hw1, hwT, _⟩ :=
        (pathsSP_allowed_iff _ _ _ _ _ u v g).mp hc.2
      have hstep : (pathsSP adj tc zocApp T bound).step u v g =
          turnStep T (zocApp v) w g := by
        show turnStep T (zocApp v) ((tc v).getD 0) g = _
        rw [htc]
        simp only [Option.getD_some]
      rw [hstep] at hw
      set g2 := turnStep T (zocApp v) w g with hg2
      set A2 := (annGo T zocApp tc cap inv v g2 q').2 with hA2
      set H := (if turnIdx T g < turnIdx T g2 then
        [(u, (⟨(turnIdx T g2 : ℤ), zocApp u, cap u, inv u⟩ : waypoint))]
        else []) with hH
      have hunfold : (annGo T zocApp tc cap inv u g (v :: q')).2 = H ++ A2 := by
        simp only [annGo, htc, if_neg (by omega : ¬ T < w)]
      have huq : u ∉ v :: q' := (List.nodup_cons.mp hnd).1
      have hndq : (v :: q').Nodup := (List.nodup_cons.mp hnd).2
      have hA2sub : ∀ p ∈ A2, p.1 ∈ v :: q' :=
        annGo_fst_subset cap inv q' v g2
      have hukeys : u ∉ A2.map Prod.fst := by
        intro hc2
        obtain ⟨p, hp, hpe⟩ := List.mem_map.mp hc2
        exact huq (hpe ▸ hA2sub p hp)
      have hHkeys : ∀ x, x ∈ H.map Prod.fst → x = u := by
        intro x hx
        rw [hH] at hx
        by_cases hrec : turnIdx T g < turnIdx T g2
        · rw [if_pos hrec] at hx
          simpa using hx
        · rw [if_neg hrec] at hx
          simp at hx
      have hm₁ne : ∀ x, x ≠ u → applyWps m₀ H x = m₀ x := by
        intro x hx
        rw [hH]
        by_cases hrec : turnIdx T g < turnIdx T g2
        · rw [if_pos hrec]
          simp [applyWps, updWp, hx]
        · rw [if_neg hrec]
          rfl
      rw [hunfold, applyWps_append] at hbi hbj
      have hmapfst : (annGo T zocApp tc cap inv u g (v :: q')).2.map
          Prod.fst = H.map Prod.fst ++ A2.map Prod.fst := by
        rw [hunfold, List.map_append]
      cases i with
      | succ i' =>
          cases j with
          | zero => omega
          | succ j' =>
              have hm' : ∀ x ∈ v :: q', applyWps m₀ H x ≠ none →
                  x ∈ A2.map Prod.fst := by
                intro x hx hne
                have hxu : x ≠ u := fun hc2 => huq (hc2 ▸ hx)
                rw [hm₁ne x hxu] at hne
                have := hm x (List.mem_cons_of_mem _ hx) hne
                rw [hmapfst] at this
                rcases List.mem_append.mp this with h | h
                · exact absurd (hHkeys x h) hxu
                · exact h
              exact ih v g2 gf (applyWps m₀ H) hw hndq hm' i' j'
                (by simpa using hi) (by simpa using hj) (by omega) wi wj
                hbi hbj
      | zero =>
          -- the binding at the head tile comes from the boundary record
          have hgetu : (u :: v :: q').get ⟨0, hi⟩ = u := rfl
          rw [hgetu, applyWps_eq_of_not_mem A2 _ u hukeys] at hbi
          by_cases hrec : turnIdx T g < turnIdx T g2
          · have hwi : wi = ⟨(turnIdx T g2 : ℤ), zocApp u, cap u, inv u⟩ := by
              rw [hH, if_pos hrec] at hbi
              simp only [applyWps, List.foldl_cons, List.foldl_nil] at hbi
              simp only [updWp, if_pos rfl] at hbi
              exact (Option.some_inj.mp hbi).symm
            cases j with
            | zero => omega
            | succ j' =>
                have hj' : j' < (v :: q').length := by simpa using hj
                have hgetj : (u :: v :: q').get ⟨j' + 1, hj⟩ =
                    (v :: q').get ⟨j', hj'⟩ := rfl
                rw [hgetj] at hbj
                have hxj : (v :: q').get ⟨j', hj'⟩ ∈ v :: q' :=
                  List.get_mem _ _ hj'
                by_cases hkey : (v :: q').get ⟨j', hj'⟩ ∈ A2.map Prod.fst
                · obtain ⟨p, hpA, hpe, hval⟩ :=
                    applyWps_mem_of_mem_keys A2 (applyWps m₀ H) _ hkey
                  rw [hval] at hbj
                  have hwj : wj = p.2 := (Option.some_inj.mp hbj).symm
                  have := annGo_turns_gt cap inv q' v g2 gf hw p hpA
                  rw [hwi, hwj]
                  simpa using this
                · rw [applyWps_eq_of_not_mem A2 _ _ hkey] at hbj
                  have hxu : (v :: q').get ⟨j', hj'⟩ ≠ u :=
                    fun hc2 => huq (hc2 ▸ hxj)
                  rw [hm₁ne _ hxu] at hbj
                  have := hm _ (List.mem_cons_of_mem _ hxj) (by rw [hbj]; simp)
                  rw [hmapfst] at this
                  rcases List.mem_append.mp this with h | h
                  · exact absurd (hHkeys _ h) hxu
                  · exact absurd h hkey
          · exfalso
            rw [hH, if_neg hrec] at hbi
            have hbi2 : m₀ u = some wi := hbi
            have := hm u (List.mem_cons_self _ _) (by rw [hbi2]; simp)
            rw [hmapfst] at this
            rcases List.mem_append.mp this with h | h
            · rw [hH, if_neg hrec] at h
              simp at h
            · exact hukeys h

/-- C7: for every route produced by the Reachability Engine, after
annotation by `route_turns_to_complete` the turn indices of its
waypoints are strictly increasing along the route, and the route's last
tile is always present as a key in the waypoint mapping. -/
theorem annotated_route_turns_strict_mono (adj : Fin n → List (Fin n))
    (tc : Fin n → Option ℕ) (zocRaw : Fin n → Bool) (src : Fin n)
    (force_ignore_zocs skirmisher : Bool) (movement_left T : ℕ)
    (additional_turns : ℕ) (cap inv : Fin n → Bool) (dst : Fin n)
    (r : route (Fin n))
    (hr : (paths.compute adj tc zocRaw src force_ignore_zocs skirmisher
      movement_left T additional_turns).routes dst = some r) :
    (∀ (i j : ℕ) (xi xj : Fin n) (wi wj : waypoint), i < j →
      r.steps[i]? = some xi → r.steps[j]? = some xj →
      (route_turns_to_complete tc
        (zocApplies force_ignore_zocs skirmisher zocRaw) cap inv
        movement_left T r).2.waypoints xi = some wi →
      (route_turns_to_complete tc
        (zocApplies force_ignore_zocs skirmisher zocRaw) cap inv
        movement_left T r).2.waypoints xj = some wj →
      wi.turns < wj.turns) ∧
    ∃ (x : Fin n) (wp : waypoint), r.steps.getLast? = some x ∧
      (route_turns_to_complete tc
        (zocApplies force_ignore_zocs skirmisher zocRaw) cap inv
        movement_left T r).2.waypoints x = some wp := by
  simp only [paths.compute, Option.map_eq_some'] at hr
  obtain ⟨e, hfind, hre⟩ := hr
  have hmem : e ∈ searchResult
      (pathsSP adj tc (zocApplies force_ignore_zocs skirmisher zocRaw) T
        ((additional_turns + 1) * T)) src (T - movement_left) :=
    List.mem_of_find?_eq_some hfind
  have rinv := searchResult_inv src (T - movement_left)
    (pathsSP_ok adj tc (zocApplies force_ignore_zocs skirmisher zocRaw) T
      ((additional_turns + 1) * T))
  obtain ⟨q, hpath, hwalk, hend, hnd, _⟩ := rinv.soundS e hmem
  have hsteps : r.steps = src :: q := by rw [← hre, hpath]
  have hwps : r.waypoints = applyWps (fun _ => none)
      (mkWaypointsGo T (zocApplies force_ignore_zocs skirmisher zocRaw) tc
        src (T - movement_left) q) := by
    rw [← hre, hpath]
    rfl
  have hndq : (src :: q).Nodup := by rw [← hpath]; exact hnd
  have har : (route_turns_to_complete tc
      (zocApplies force_ignore_zocs skirmisher zocRaw) cap inv
      movement_left T r).2 =
      { r with waypoints := (applyWps r.waypoints
        (annGo T (zocApplies force_ignore_zocs skirmisher zocRaw) tc cap inv
          src (T - movement_left) q).2) } := by
    simp only [route_turns_to_complete, hsteps]
  obtain ⟨hann1, l, hl1, hl2⟩ :=
    annGo_split_of_walk cap inv q src (T - movement_left) e.g hwalk
  have hcond : ∀ x ∈ src :: q, r.waypoints x ≠ none →
      x ∈ ((annGo T (zocApplies force_ignore_zocs skirmisher zocRaw) tc cap
        inv src (T - movement_left) q).2).map Prod.fst := by
    intro x _ hne
    have hxmk : x ∈ (mkWaypointsGo T
        (zocApplies force_ignore_zocs skirmisher zocRaw) tc src
        (T - movement_left) q).map Prod.fst := by
      by_contra hno
      rw [hwps, applyWps_eq_of_not_mem _ _ x hno] at hne
      exact hne rfl
    rw [hl1, List.map_append]
    exact List.mem_append_left _ (by rw [hl2]; exact hxmk)
  have hmain := annGo_map_increasing cap inv q src (T - movement_left) e.g
    r.waypoints hwalk hndq hcond
  constructor
  · intro i j xi xj wi wj hij hxi hxj hwi hwj
    rw [hsteps] at hxi hxj
    obtain ⟨hi, hgi⟩ := List.getElem?_eq_some.mp hxi
    obtain ⟨hj2, hgj⟩ := List.getElem?_eq_some.mp hxj
    rw [har] at hwi hwj
    have hwi' : applyWps r.waypoints
        (annGo T (zocApplies force_ignore_zocs skirmisher zocRaw) tc cap inv
          src (T - movement_left) q).2 xi = some wi := hwi
    have hwj' : applyWps r.waypoints
        (annGo T (zocApplies force_ignore_zocs skirmisher zocRaw) tc cap inv
          src (T - movement_left) q).2 xj = some wj := hwj
    have hg1 : (src :: q).get ⟨i, hi⟩ = xi := by
      rw [List.get_eq_getElem]; exact hgi
    have hg2 : (src :: q).get ⟨j, hj2⟩ = xj := by
      rw [List.get_eq_getElem]; exact hgj
    exact hmain i j hi hj2 hij wi wj (by rw [hg1]; exact hwi')
      (by rw [hg2]; exact hwj')
  · refine ⟨endOf src q, ⟨(turnIdx T e.g : ℤ) + 1,
      zocApplies force_ignore_zocs skirmisher zocRaw (endOf src q),
      cap (endOf src q), inv (endOf src q)⟩, ?_, ?_⟩
    · rw [hsteps, ← cons_dropLast_endOf src q]
      simpa using List.getLast?_concat ((src :: q).dropLast)
    · rw [har]
      show applyWps r.waypoints
        (annGo T (zocApplies force_ignore_zocs skirmisher zocRaw) tc cap inv
          src (T - movement_left) q).2 (endOf src q) = some _
      rw [hl1, applyWps_append]
      simp [applyWps, updWp]

/-- Witness for C7 on the line-graph instance: the stored route to tile
5 with full movement 3 and one additional turn. -/
theorem annotated_route_turns_strict_mono_witness :
    ∃ r, (paths.compute lineAdj lineTc (fun _ => false) 0 false false 3 3
        1).routes 5 = some r ∧
      ((∀ (i j : ℕ) (xi xj : Fin 6) (wi wj : waypoint), i < j →
        r.steps[i]? = some xi → r.steps[j]? = some xj →
        (route_turns_to_complete lineTc
          (zocApplies false false fun _ => false) (fun _ => false)
          (fun _ => false) 3 3 r).2.waypoints xi = some wi →
        (route_turns_to_complete lineTc
          (zocApplies false false fun _ => false) (fun _ => false)
          (fun _ => false) 3 3 r).2.waypoints xj = some wj →
        wi.turns < wj.turns) ∧
      ∃ (x : Fin 6) (wp : waypoint), r.steps.getLast? = some x ∧
        (route_turns_to_complete lineTc
          (zocApplies false false fun _ => false) (fun _ => false)
          (fun _ => false) 3 3 r).2.waypoints x = some wp) := by
  cases hsome : (paths.compute lineAdj lineTc (fun _ => false) 0 false false
      3 3 1).routes 5 with
  | none =>
      exfalso
      have : ((paths.compute lineAdj lineTc (fun _ => false) 0 false false
          3 3 1).routes 5).isSome = true := by decide
      rw [hsome] at this
      simp at this
  | some r =>
      exact ⟨r, rfl, annotated_route_turns_strict_mono lineAdj lineTc
        (fun _ => false) 0 false false 3 3 1 (fun _ => false)
        (fun _ => false) 5 r hsome⟩

end Wesnoth
